import Mathlib

/-!
Verification of the geometric reconstruction pipeline of the `fall` repository:
the brush vertex reconstructor (`fall/src/map.rs`), the convex hull builder
(`gungame/src/convex_hull.rs`) and the map parser (`fall/src/map.rs`,
`map_parser` module).

`f32` arithmetic is embedded as exact real arithmetic (`ℝ`); machine floats are
idealised as reals throughout.  All list/loop structure follows the Rust source
directly.
-/

open scoped Classical

noncomputable section

namespace Fall

/-- 3D vector with real components, embedding `nalgebra::Vector3<f32>`. -/
structure Vec3 where
  x : ℝ
  y : ℝ
  z : ℝ

/-- The zero vector (`Vector3::zeros()`), used as a `getD` fallback. -/
def vzero : Vec3 := ⟨0, 0, 0⟩

/-- Componentwise addition. -/
def Vec3.add (a b : Vec3) : Vec3 := ⟨a.x + b.x, a.y + b.y, a.z + b.z⟩

/-- Componentwise subtraction. -/
def Vec3.sub (a b : Vec3) : Vec3 := ⟨a.x - b.x, a.y - b.y, a.z - b.z⟩

/-- Scalar multiplication. -/
def Vec3.smul (r : ℝ) (v : Vec3) : Vec3 := ⟨r * v.x, r * v.y, r * v.z⟩

instance : Add Vec3 := ⟨Vec3.add⟩

instance : Sub Vec3 := ⟨Vec3.sub⟩

instance : SMul ℝ Vec3 := ⟨Vec3.smul⟩

theorem Vec3.add_def (a b : Vec3) : a + b = ⟨a.x + b.x, a.y + b.y, a.z + b.z⟩ := rfl

theorem Vec3.sub_def (a b : Vec3) : a - b = ⟨a.x - b.x, a.y - b.y, a.z - b.z⟩ := rfl

theorem Vec3.smul_def (r : ℝ) (v : Vec3) : r • v = ⟨r * v.x, r * v.y, r * v.z⟩ := rfl

/-- Dot product (`Vector3::dot`). -/
def Vec3.dot (a b : Vec3) : ℝ := a.x * b.x + a.y * b.y + a.z * b.z

/-- Cross product (`Vector3::cross`). -/
def Vec3.cross (a b : Vec3) : Vec3 :=
  ⟨a.y * b.z - a.z * b.y, a.z * b.x - a.x * b.z, a.x * b.y - a.y * b.x⟩

/-- Squared euclidean norm (`magnitude_squared` / `magnitude2`). -/
def Vec3.normSq (v : Vec3) : ℝ := v.dot v

/-- Euclidean norm (`magnitude`). -/
def Vec3.norm (v : Vec3) : ℝ := Real.sqrt v.normSq

/-- `Vector3::normalize`: division of the vector by its euclidean norm. -/
def Vec3.normalize (v : Vec3) : Vec3 := (1 / v.norm) • v

/-- Determinant of the 3×3 matrix whose columns are `a`, `b`, `c`
(`Matrix3::from_columns(..).determinant()`), by cofactor expansion along the
first row. -/
def det3 (a b c : Vec3) : ℝ :=
  a.x * (b.y * c.z - c.y * b.z) - b.x * (a.y * c.z - c.y * a.z)
    + c.x * (a.y * b.z - b.y * a.z)

/-- A half-plane of a brush, from `fall/src/map.rs` (`Plane<'a>`): three
defining points plus surface attributes that the geometry never reads. -/
structure Plane where
  p0 : Vec3
  p1 : Vec3
  p2 : Vec3
  texture : String
  xOffset : ℝ
  yOffset : ℝ
  rotation : ℝ
  xScale : ℝ
  yScale : ℝ

/-- `Plane::default()`. -/
def defPlane : Plane := ⟨vzero, vzero, vzero, "", 0, 0, 0, 0, 0⟩

/-- A brush: an ordered collection of planes (`Brush<'a>`). -/
structure Brush where
  planes : List Plane

/-- The normal pushed for one plane in `Brush::vertices`:
`(points[1] - points[0]).cross(&(points[2] - points[0])).normalize()`. -/
def planeNormal (pl : Plane) : Vec3 :=
  Vec3.normalize (Vec3.cross (pl.p1 - pl.p0) (pl.p2 - pl.p0))

/-- The `normals` vector built by the first loop of `Brush::vertices`. -/
def normalsList (b : Brush) : List Vec3 := b.planes.map planeNormal

/-- The `continue` guard of the `j` loop in `Brush::vertices`:
`i == j || n1 == n2`. -/
def skipPair (normals : List Vec3) (i j : ℕ) : Prop :=
  i = j ∨ normals.getD i vzero = normals.getD j vzero

/-- The `continue` guard of the `k` loop in `Brush::vertices`:
`i == k || j == k || n1 == n3 || n2 == n3`. -/
def skipTriple (normals : List Vec3) (i j k : ℕ) : Prop :=
  i = k ∨ j = k ∨ normals.getD i vzero = normals.getD k vzero
    ∨ normals.getD j vzero = normals.getD k vzero

/-- The Cramer's-rule candidate vertex computed for a surviving triple in
`Brush::vertices`:
`1.0 / det(M) * (d1 * (n2 × n3) + d2 * (n3 × n1) + d3 * (n1 × n2))`
with `dI = planes[I].points[0] ⬝ nI`.  Note the source divides by the
determinant unconditionally. -/
def cramerVertex (b : Brush) (i j k : ℕ) : Vec3 :=
  let normals := normalsList b
  let ni := normals.getD i vzero
  let nj := normals.getD j vzero
  let nk := normals.getD k vzero
  let di := Vec3.dot (b.planes.getD i defPlane).p0 ni
  let dj := Vec3.dot (b.planes.getD j defPlane).p0 nj
  let dk := Vec3.dot (b.planes.getD k defPlane).p0 nk
  (1 / det3 ni nj nk) •
    (di • Vec3.cross nj nk + dj • Vec3.cross nk ni + dk • Vec3.cross ni nj)

/-- The candidate list produced by the triple loop of `Brush::vertices`. -/
def candidates (b : Brush) : List Vec3 :=
  (List.range b.planes.length).flatMap fun i =>
    (List.range b.planes.length).flatMap fun j =>
      if skipPair (normalsList b) i j then [] else
        (List.range b.planes.length).filterMap fun k =>
          if skipTriple (normalsList b) i j k then none
          else some (cramerVertex b i j k)

/-- One pass of the final loop of `Brush::vertices`:
`vertices.retain(|v| (v - planes[i].points[0]).dot(&normals[i]) >= -0.2)`. -/
def retainStep (b : Brush) (vs : List Vec3) (i : ℕ) : List Vec3 :=
  vs.filter fun v =>
    decide (Vec3.dot (v - (b.planes.getD i defPlane).p0)
      ((normalsList b).getD i vzero) ≥ -(0.2 : ℝ))

/-- `Brush::vertices` from `fall/src/map.rs`: candidate enumeration followed by
the per-plane retain loop. -/
def Brush.vertices (b : Brush) : List Vec3 :=
  (List.range b.planes.length).foldl (retainStep b) (candidates b)

/-- Signed distance of a point to a plane, using the normal the geometry
computation actually uses (`planeNormal`). -/
def signedDistance (pl : Plane) (v : Vec3) : ℝ := Vec3.dot (v - pl.p0) (planeNormal pl)

/-- Membership in a fold of filters forces every filter predicate to hold. -/
theorem mem_foldl_filter {α : Type} (p : ℕ → α → Bool) :
    ∀ (l : List ℕ) (init : List α) (v : α),
      v ∈ l.foldl (fun vs i => vs.filter (p i)) init → v ∈ init ∧ ∀ i ∈ l, p i v = true := by
  intro l
  induction l with
  | nil => intro init v h; exact ⟨h, by simp⟩
  | cons a l ih =>
    intro init v h
    have h' := ih (init.filter (p a)) v h
    rcases h' with ⟨hmem, hall⟩
    rw [List.mem_filter] at hmem
    refine ⟨hmem.1, ?_⟩
    intro i hi
    rcases List.mem_cons.mp hi with rfl | hi'
    · exact hmem.2
    · exact hall i hi'

/-- C1: every vertex returned by `Brush::vertices` satisfies
`signedDistance(v) ≥ -0.2` for every plane of the brush.  This holds for all
brushes (in particular for the well-separated, bounded ones of the claim):
the final retain loop enforces exactly this predicate for every plane index. -/
theorem c1_vertices_satisfy_halfspace_tolerance (b : Brush) :
    b.vertices.Forall fun v => b.planes.Forall fun pl => signedDistance pl v ≥ -(0.2 : ℝ) := by
  rw [List.forall_iff_forall_mem]
  intro v hv
  rw [List.forall_iff_forall_mem]
  intro pl hpl
  unfold Brush.vertices at hv
  have h := mem_foldl_filter
    (fun i v => decide (Vec3.dot (v - (b.planes.getD i defPlane).p0)
      ((normalsList b).getD i vzero) ≥ -(0.2 : ℝ)))
    (List.range b.planes.length) (candidates b) v hv
  rcases h with ⟨_, hall⟩
  rcases List.mem_iff_getElem.mp hpl with ⟨i, hi, rfl⟩
  have hmem : i ∈ List.range b.planes.length := List.mem_range.mpr hi
  have := hall i hmem
  rw [decide_eq_true_iff] at this
  have hgetD : b.planes.getD i defPlane = b.planes[i] := List.getD_eq_getElem _ _ hi
  have hnorm : (normalsList b).getD i vzero = planeNormal b.planes[i] := by
    unfold normalsList
    rw [List.getD_eq_getElem _ _ (by simpa using hi)]
    simp
  rw [hgetD, hnorm] at this
  exact this

/-- A vector of unit squared norm is fixed by `normalize`. -/
theorem Vec3.normalize_of_normSq_one {v : Vec3} (h : v.normSq = 1) : v.normalize = v := by
  unfold Vec3.normalize Vec3.norm
  rw [h, Real.sqrt_one]
  show Vec3.smul (1 / 1) v = v
  cases v
  simp [Vec3.smul]

/-- Evaluation helper: if the cross product of the two edge vectors is a known
unit vector, the plane normal is that vector. -/
theorem planeNormal_eval (pl : Plane) (w : Vec3)
    (hc : Vec3.cross (pl.p1 - pl.p0) (pl.p2 - pl.p0) = w) (hw : w.normSq = 1) :
    planeNormal pl = w := by
  unfold planeNormal
  rw [hc]
  exact Vec3.normalize_of_normSq_one hw

/-- Concrete plane with normal `(1,0,0)` (the plane `x = 0`). -/
def planeA : Plane := ⟨⟨0, 0, 0⟩, ⟨0, 1, 0⟩, ⟨0, 0, 1⟩, "tex", 0, 0, 0, 1, 1⟩

/-- Concrete plane with normal `(-1,0,0)` (the plane `x = 1`, inward). -/
def planeB : Plane := ⟨⟨1, 0, 0⟩, ⟨1, 0, 1⟩, ⟨1, 1, 0⟩, "tex", 0, 0, 0, 1, 1⟩

/-- Concrete plane with normal `(0,0,1)` (the plane `z = 0`). -/
def planeC : Plane := ⟨⟨0, 0, 0⟩, ⟨1, 0, 0⟩, ⟨0, 1, 0⟩, "tex", 0, 0, 0, 1, 1⟩

/-- Concrete plane with normal `(0,1,0)` (the plane `y = 0`). -/
def planeD : Plane := ⟨⟨0, 0, 0⟩, ⟨0, 0, 1⟩, ⟨1, 0, 0⟩, "tex", 0, 0, 0, 1, 1⟩

theorem planeNormal_planeA : planeNormal planeA = ⟨1, 0, 0⟩ := by
  refine planeNormal_eval _ _ ?_ (by norm_num [Vec3.normSq, Vec3.dot])
  show Vec3.cross (Vec3.sub _ _) (Vec3.sub _ _) = _
  norm_num [planeA, Vec3.cross, Vec3.sub]

theorem planeNormal_planeB : planeNormal planeB = ⟨-1, 0, 0⟩ := by
  refine planeNormal_eval _ _ ?_ (by norm_num [Vec3.normSq, Vec3.dot])
  show Vec3.cross (Vec3.sub _ _) (Vec3.sub _ _) = _
  norm_num [planeB, Vec3.cross, Vec3.sub]

theorem planeNormal_planeC : planeNormal planeC = ⟨0, 0, 1⟩ := by
  refine planeNormal_eval _ _ ?_ (by norm_num [Vec3.normSq, Vec3.dot])
  show Vec3.cross (Vec3.sub _ _) (Vec3.sub _ _) = _
  norm_num [planeC, Vec3.cross, Vec3.sub]

theorem planeNormal_planeD : planeNormal planeD = ⟨0, 1, 0⟩ := by
  refine planeNormal_eval _ _ ?_ (by norm_num [Vec3.normSq, Vec3.dot])
  show Vec3.cross (Vec3.sub _ _) (Vec3.sub _ _) = _
  norm_num [planeD, Vec3.cross, Vec3.sub]

/-- A brush of three mutually orthogonal planes meeting at the origin. -/
def brushXYZ : Brush := ⟨[planeA, planeD, planeC]⟩

/-- A brush containing two anti-parallel planes (`x = 0` inward and `x = 1`
inward) plus `z = 0`: normals `(1,0,0)`, `(-1,0,0)`, `(0,0,1)`. -/
def brushPar : Brush := ⟨[planeA, planeB, planeC]⟩

/-- A brush of only two planes. -/
def brushTwo : Brush := ⟨[planeA, planeC]⟩

theorem normalsList_brushXYZ :
    normalsList brushXYZ = [⟨1, 0, 0⟩, ⟨0, 1, 0⟩, ⟨0, 0, 1⟩] := by
  simp [normalsList, brushXYZ, planeNormal_planeA, planeNormal_planeD, planeNormal_planeC]

theorem normalsList_brushPar :
    normalsList brushPar = [⟨1, 0, 0⟩, ⟨-1, 0, 0⟩, ⟨0, 0, 1⟩] := by
  simp [normalsList, brushPar, planeNormal_planeA, planeNormal_planeB, planeNormal_planeC]

theorem candidates_brushXYZ :
    candidates brushXYZ = [vzero, vzero, vzero, vzero, vzero, vzero] := by
  have hr : List.range brushXYZ.planes.length = [0, 1, 2] := rfl
  unfold candidates
  rw [hr]
  simp only [cramerVertex, normalsList_brushXYZ,
    show brushXYZ.planes = [planeA, planeD, planeC] from rfl]
  norm_num [List.flatMap_cons, List.flatMap_nil, List.filterMap_cons, skipPair, skipTriple,
    Vec3.mk.injEq, det3, Vec3.dot, Vec3.cross, Vec3.smul_def, Vec3.add_def, vzero,
    planeA, planeD, planeC]

/-- C3 counterexample: a brush with 3 pairwise-intersecting planes (fewer than
4) yields a non-empty vertex list: each of the six ordered triples produces the
common intersection point, which survives every retain pass. -/
theorem c3_counterexample : brushXYZ.planes.length < 4 ∧ brushXYZ.vertices ≠ [] := by
  refine ⟨by norm_num [brushXYZ], ?_⟩
  have hv : brushXYZ.vertices = [vzero, vzero, vzero, vzero, vzero, vzero] := by
    unfold Brush.vertices
    rw [candidates_brushXYZ, show List.range brushXYZ.planes.length = [0, 1, 2] from rfl]
    norm_num [retainStep, normalsList_brushXYZ,
      show brushXYZ.planes = [planeA, planeD, planeC] from rfl,
      List.foldl_cons, List.foldl_nil, List.filter_cons, vzero,
      planeA, planeD, planeC, Vec3.dot, Vec3.sub_def]
  rw [hv]
  simp

theorem foldl_retain_nil (b : Brush) (l : List ℕ) : l.foldl (retainStep b) [] = [] := by
  induction l with
  | nil => rfl
  | cons a t ih => simpa [retainStep] using ih

/-- C3 amended: `Brush::vertices` returns the empty list for every brush with
fewer than 3 planes (the triple loop needs three distinct indices); with
exactly 3 planes the result can be non-empty. -/
theorem c3_amended_fewer_than_three_planes_empty (b : Brush) (h : b.planes.length < 3) :
    b.vertices = [] := by
  have hc : candidates b = [] := by
    have h3 : b.planes.length = 0 ∨ b.planes.length = 1 ∨ b.planes.length = 2 := by omega
    unfold candidates
    rcases h3 with h0 | h1 | h2
    · rw [h0]; simp
    · rw [h1]; simp [skipPair]
    · rw [h2]
      simp [skipPair, skipTriple, List.range_succ]
  unfold Brush.vertices
  rw [hc]
  exact foldl_retain_nil b _

theorem c3_amended_witness : brushTwo.planes.length < 3 ∧ brushTwo.vertices = [] :=
  ⟨by norm_num [brushTwo],
    c3_amended_fewer_than_three_planes_empty brushTwo (by norm_num [brushTwo])⟩

/-- C4 counterexample: in `brushPar` the triple `(0, 1, 2)` has normals
`(1,0,0)`, `(-1,0,0)`, `(0,0,1)` — pairwise distinct, so neither `continue`
guard of `Brush::vertices` fires — yet the determinant of the matrix of
normals is zero.  The triple is therefore not skipped and the division by
`det(M)` is performed with a zero determinant. -/
theorem c4_counterexample :
    ¬ skipPair (normalsList brushPar) 0 1 ∧ ¬ skipTriple (normalsList brushPar) 0 1 2 ∧
      det3 ((normalsList brushPar).getD 0 vzero) ((normalsList brushPar).getD 1 vzero)
        ((normalsList brushPar).getD 2 vzero) = 0 := by
  rw [normalsList_brushPar]
  norm_num [skipPair, skipTriple, det3, Vec3.mk.injEq]

/-- C4 amended: a triple is skipped only when two of its indices coincide or
two of its normals are exactly equal; every other triple — including those
with zero determinant — contributes a Cramer's-rule candidate, i.e. the
division by `det(M)` is performed without any determinant check. -/
theorem c4_amended_no_determinant_guard (b : Brush) (i j k : ℕ)
    (hi : i < b.planes.length) (hj : j < b.planes.length) (hk : k < b.planes.length)
    (hp : ¬ skipPair (normalsList b) i j) (ht : ¬ skipTriple (normalsList b) i j k) :
    cramerVertex b i j k ∈ candidates b := by
  unfold candidates
  refine List.mem_flatMap.mpr ⟨i, List.mem_range.mpr hi, ?_⟩
  refine List.mem_flatMap.mpr ⟨j, List.mem_range.mpr hj, ?_⟩
  rw [if_neg hp]
  refine List.mem_filterMap.mpr ⟨k, List.mem_range.mpr hk, ?_⟩
  rw [if_neg ht]

theorem c4_amended_witness :
    det3 ((normalsList brushPar).getD 0 vzero) ((normalsList brushPar).getD 1 vzero)
        ((normalsList brushPar).getD 2 vzero) = 0
      ∧ cramerVertex brushPar 0 1 2 ∈ candidates brushPar := by
  refine ⟨by rw [normalsList_brushPar]; norm_num [det3], ?_⟩
  exact c4_amended_no_determinant_guard brushPar 0 1 2
    (by norm_num [brushPar]) (by norm_num [brushPar]) (by norm_num [brushPar])
    (by rw [skipPair, normalsList_brushPar]; norm_num [Vec3.mk.injEq])
    (by rw [skipTriple, normalsList_brushPar]; norm_num [Vec3.mk.injEq])

/-- The outward normal exactly as §4.1 of the spec words it:
`normalize(cross(p2 - p0, p1 - p0))`.  Second definition for the refinement
comparison with the source's `planeNormal`. -/
def specNormalSwapped (pl : Plane) : Vec3 :=
  Vec3.normalize (Vec3.cross (pl.p2 - pl.p0) (pl.p1 - pl.p0))

/-- C5 counterexample: on a concrete non-collinear plane the spec's normal
formula `normalize(cross(p2 - p0, p1 - p0))` and the normal the code computes
(`normalize(cross(p1 - p0, p2 - p0))`) differ — they point in opposite
directions. -/
theorem c5_counterexample : specNormalSwapped planeA ≠ planeNormal planeA := by
  have h1 : specNormalSwapped planeA = ⟨-1, 0, 0⟩ := by
    unfold specNormalSwapped
    rw [show Vec3.cross (planeA.p2 - planeA.p0) (planeA.p1 - planeA.p0) = ⟨-1, 0, 0⟩ from by
      norm_num [planeA, Vec3.cross, Vec3.sub_def, Vec3.mk.injEq]]
    exact Vec3.normalize_of_normSq_one (by norm_num [Vec3.normSq, Vec3.dot])
  rw [h1, planeNormal_planeA]
  intro h
  have := congrArg Vec3.x h
  norm_num at this

theorem foldl_filter_eq_filter_all {α : Type} (p : ℕ → α → Bool) :
    ∀ (l : List ℕ) (init : List α),
      l.foldl (fun vs i => vs.filter (p i)) init = init.filter fun v => l.all (p · v) := by
  intro l
  induction l with
  | nil => intro init; simp
  | cons a t ih =>
    intro init
    rw [List.foldl_cons, ih, List.filter_filter]
    apply List.filter_congr
    intro v _
    simp [Bool.and_comm]

/-- C5 amended: the geometry uses the normal
`normalize(cross(p1 - p0, p2 - p0))` (arguments swapped relative to the spec's
wording), and `Brush::vertices` equals the candidate list filtered by the
membership test `dot(v - p0, normal) ≥ -0.2` applied for every plane of the
brush. -/
theorem c5_amended_normal_and_membership (b : Brush) :
    b.vertices = (candidates b).filter fun v =>
      b.planes.all fun pl => decide
        (Vec3.dot (v - pl.p0)
          (Vec3.normalize (Vec3.cross (pl.p1 - pl.p0) (pl.p2 - pl.p0))) ≥ -(0.2 : ℝ)) := by
  unfold Brush.vertices
  rw [show retainStep b = fun vs i => vs.filter fun v =>
        decide (Vec3.dot (v - (b.planes.getD i defPlane).p0)
          ((normalsList b).getD i vzero) ≥ -(0.2 : ℝ)) from rfl,
    foldl_filter_eq_filter_all]
  apply List.filter_congr
  intro v _
  rw [Bool.eq_iff_iff]
  simp only [List.all_eq_true, decide_eq_true_eq, List.mem_range]
  constructor
  · intro h pl hpl
    rcases List.mem_iff_getElem.mp hpl with ⟨i, hi, rfl⟩
    have := h i (by simpa using hi)
    rw [List.getD_eq_getElem _ _ hi,
      show (normalsList b).getD i vzero = planeNormal b.planes[i] from by
        unfold normalsList
        rw [List.getD_eq_getElem _ _ (by simpa using hi)]
        simp] at this
    exact this
  · intro h i hi
    have hpl : b.planes[i] ∈ b.planes := List.getElem_mem hi
    have := h _ hpl
    rw [List.getD_eq_getElem _ _ hi,
      show (normalsList b).getD i vzero = planeNormal b.planes[i] from by
        unfold normalsList
        rw [List.getD_eq_getElem _ _ (by simpa using hi)]
        simp]
    exact this

/-- The purely geometric content of a plane: its three defining points. -/
def planeGeo (pl : Plane) : Vec3 × Vec3 × Vec3 := (pl.p0, pl.p1, pl.p2)

theorem getD_map {α β : Type} (f : α → β) (l : List α) (i : ℕ) (d : α) :
    (l.map f).getD i (f d) = f (l.getD i d) := by
  rw [List.getD_eq_getElem?_getD, List.getD_eq_getElem?_getD, List.getElem?_map]
  cases l[i]? <;> rfl

theorem normalsList_eq_of_geo {b c : Brush}
    (h : b.planes.map planeGeo = c.planes.map planeGeo) :
    normalsList b = normalsList c := by
  have key : ∀ d : Brush, normalsList d =
      (d.planes.map planeGeo).map fun g =>
        Vec3.normalize (Vec3.cross (g.2.1 - g.1) (g.2.2 - g.1)) := by
    intro d
    unfold normalsList
    rw [List.map_map]
    rfl
  rw [key b, key c, h]

theorem p0_getD_eq_of_geo {b c : Brush}
    (h : b.planes.map planeGeo = c.planes.map planeGeo) (i : ℕ) :
    (b.planes.getD i defPlane).p0 = (c.planes.getD i defPlane).p0 := by
  have hb := getD_map planeGeo b.planes i defPlane
  have hc := getD_map planeGeo c.planes i defPlane
  have : (planeGeo (b.planes.getD i defPlane)).1 = (planeGeo (c.planes.getD i defPlane)).1 := by
    rw [← hb, ← hc, h]
  exact this

/-- C9: brushes whose planes agree on the three defining points — however the
surface attributes (texture, offsets, rotation, scale) differ — produce
identical vertex lists: the geometry never reads the attributes. -/
theorem c9_surface_attributes_opaque (b c : Brush)
    (h : b.planes.map planeGeo = c.planes.map planeGeo) :
    b.vertices = c.vertices := by
  have hlen : b.planes.length = c.planes.length := by
    have := congrArg List.length h
    simpa using this
  have hn := normalsList_eq_of_geo h
  have hcr : ∀ i j k : ℕ, cramerVertex b i j k = cramerVertex c i j k := by
    intro i j k
    unfold cramerVertex
    rw [hn, p0_getD_eq_of_geo h i, p0_getD_eq_of_geo h j, p0_getD_eq_of_geo h k]
  have hcand : candidates b = candidates c := by
    unfold candidates
    rw [hlen, hn]
    simp only [hcr]
  have hretain : retainStep b = retainStep c := by
    funext vs i
    unfold retainStep
    rw [hn, p0_getD_eq_of_geo h i]
  unfold Brush.vertices
  rw [hlen, hcand, hretain]

/-- `planeA` with different surface attributes. -/
def planeARetex : Plane := ⟨⟨0, 0, 0⟩, ⟨0, 1, 0⟩, ⟨0, 0, 1⟩, "other", 7, -3, 90, 2, 2⟩

theorem c9_witness :
    (Brush.mk [planeA]).planes.map planeGeo = (Brush.mk [planeARetex]).planes.map planeGeo
      ∧ planeA.texture ≠ planeARetex.texture
      ∧ (Brush.mk [planeA]).vertices = (Brush.mk [planeARetex]).vertices := by
  refine ⟨rfl, by simp [planeA, planeARetex], ?_⟩
  exact c9_surface_attributes_opaque _ _ rfl

end Fall

namespace Gungame

open Fall

/-- `line_to_pt_dist_sq` from `gungame/src/convex_hull.rs`: squared distance
from `target` to the SEGMENT `[pt1, pt2]` (the projection parameter is clamped
at both ends). -/
def lineToPtDistSq (pt1 pt2 target : Vec3) : ℝ :=
  let line := pt2 - pt1
  let p1ToTarget := target - pt1
  let p2ToTarget := target - pt2
  let p1TOnLine := Vec3.dot p1ToTarget line
  if p1TOnLine < 0 then p1ToTarget.normSq
  else if p1TOnLine ≥ line.normSq then p2ToTarget.normSq
  else p1ToTarget.normSq - p1TOnLine * p1TOnLine / line.normSq

/-- `triangle_normal`: normalized cross product of the two edge vectors. -/
def triangleNormal (pt1 pt2 pt3 : Vec3) : Vec3 :=
  Vec3.normalize (Vec3.cross (pt2 - pt1) (pt3 - pt1))

/-- `triangle_center`: componentwise average of the three corners. -/
def triangleCenter (pt1 pt2 pt3 : Vec3) : Vec3 :=
  ⟨(pt1.x + pt2.x + pt3.x) / 3, (pt1.y + pt2.y + pt3.y) / 3, (pt1.z + pt2.z + pt3.z) / 3⟩

/-- `Pair`: an input index together with the point stored at that index. -/
structure Pair where
  idx : ℕ
  pt : Vec3

/-- `construct_tetrahedron_order`: choose the tetrahedron vertex order by the
side of the `(p0,p1,p2)` plane on which `p3` lies. -/
def constructTetrahedronOrder (p0 p1 p2 p3 : Pair) : List ℕ :=
  if Vec3.dot (p0.pt - p3.pt) (triangleNormal p0.pt p1.pt p2.pt) < 0 then
    [p3.idx, p0.idx, p1.idx, p2.idx]
  else
    [p3.idx, p1.idx, p0.idx, p2.idx]

/-- The six-slot boundary array `[Pair; 6]` of `get_extreme_points`
(slot 0: min-x, 1: max-x, 2: min-y, 3: max-y, 4: min-z, 5: max-z). -/
structure Bounds where
  b0 : Pair
  b1 : Pair
  b2 : Pair
  b3 : Pair
  b4 : Pair
  b5 : Pair

/-- `update_min_max` from `gungame/src/convex_hull.rs`.  The Rust recursion is
structurally bounded by `start` (each call increases it, and `start ≥ 6`
returns); the `fuel` argument is the totalization of that bound — callers pass
`7`, which the call depth never exhausts.  On a replacement at slot `s` the
displaced occupant is first cascaded into slots `s+1..` (reading the old
array), then the slot is overwritten, and the inserted point is NOT tried on
later slots. -/
def updMM : ℕ → Pair → ℕ → Bounds → Bounds
  | 0, _, _, arr => arr
  | fuel + 1, p, start, arr =>
    match start with
    | 0 => if p.pt.x < arr.b0.pt.x then { updMM fuel arr.b0 1 arr with b0 := p }
           else updMM fuel p 1 arr
    | 1 => if p.pt.x > arr.b1.pt.x then { updMM fuel arr.b1 2 arr with b1 := p }
           else updMM fuel p 2 arr
    | 2 => if p.pt.y < arr.b2.pt.y then { updMM fuel arr.b2 3 arr with b2 := p }
           else updMM fuel p 3 arr
    | 3 => if p.pt.y > arr.b3.pt.y then { updMM fuel arr.b3 4 arr with b3 := p }
           else updMM fuel p 4 arr
    | 4 => if p.pt.z < arr.b4.pt.z then { updMM fuel arr.b4 5 arr with b4 := p }
           else updMM fuel p 5 arr
    | 5 => if p.pt.z > arr.b5.pt.z then { arr with b5 := p }
           else updMM fuel p 6 arr
    | _ => arr

/-- The boundary-filling loop of `get_extreme_points`: the array starts as six
copies of `Pair::new(0, list[0])` and every enumerated point is pushed through
`update_min_max(_, 0, _)`. -/
def computeBounds (pts : List Vec3) : Bounds :=
  let init : Pair := ⟨0, pts.headD vzero⟩
  pts.enum.foldl (fun arr ip => updMM 7 ⟨ip.1, ip.2⟩ 0 arr)
    ⟨init, init, init, init, init, init⟩

/-- Modelled from the spec (design note §9): the flat one-pass loop over six
independent min/max trackers, same strict comparisons and first-found tie
policy, for the refinement comparison with `computeBounds`. -/
def flatUpd (arr : Bounds) (ip : ℕ × Vec3) : Bounds :=
  let p : Pair := ⟨ip.1, ip.2⟩
  { b0 := if p.pt.x < arr.b0.pt.x then p else arr.b0
    b1 := if p.pt.x > arr.b1.pt.x then p else arr.b1
    b2 := if p.pt.y < arr.b2.pt.y then p else arr.b2
    b3 := if p.pt.y > arr.b3.pt.y then p else arr.b3
    b4 := if p.pt.z < arr.b4.pt.z then p else arr.b4
    b5 := if p.pt.z > arr.b5.pt.z then p else arr.b5 }

/-- Modelled from the spec (design note §9): the flat tracker loop with the
same initialization as the source. -/
def flatBounds (pts : List Vec3) : Bounds :=
  let init : Pair := ⟨0, pts.headD vzero⟩
  pts.enum.foldl flatUpd ⟨init, init, init, init, init, init⟩

/-- C8 counterexample: on `[(0,0,0), (-1,5,0)]` the second point replaces the
min-x slot, so it is never tried on the max-y slot; the recursive search
leaves slot 3 at the first point while the flat trackers record `(-1,5,0)`
as max-y. -/
theorem c8_counterexample :
    (computeBounds [⟨0, 0, 0⟩, ⟨-1, 5, 0⟩]).b3 ≠ (flatBounds [⟨0, 0, 0⟩, ⟨-1, 5, 0⟩]).b3 := by
  have h1 : (computeBounds [⟨0, 0, 0⟩, ⟨-1, 5, 0⟩]).b3 = ⟨0, ⟨0, 0, 0⟩⟩ := by
    norm_num [computeBounds, updMM,
      show ([(⟨0, 0, 0⟩ : Vec3), ⟨-1, 5, 0⟩] : List Vec3).enum
        = [(0, ⟨0, 0, 0⟩), (1, ⟨-1, 5, 0⟩)] from rfl]
  have h2 : (flatBounds [⟨0, 0, 0⟩, ⟨-1, 5, 0⟩]).b3 = ⟨1, ⟨-1, 5, 0⟩⟩ := by
    norm_num [flatBounds, flatUpd,
      show ([(⟨0, 0, 0⟩ : Vec3), ⟨-1, 5, 0⟩] : List Vec3).enum
        = [(0, ⟨0, 0, 0⟩), (1, ⟨-1, 5, 0⟩)] from rfl]
  rw [h1, h2]
  intro h
  exact absurd (congrArg Pair.idx h) (by norm_num)

theorem updMM_b0_stable :
    ∀ (fuel : ℕ) (p : Pair) (start : ℕ) (arr : Bounds), 1 ≤ start →
      (updMM fuel p start arr).b0 = arr.b0 := by
  intro fuel
  induction fuel with
  | zero => intro p start arr _; rfl
  | succ n ih =>
    intro p start arr h
    rcases start with _ | _ | _ | _ | _ | _ | m
    · omega
    · show (if p.pt.x > arr.b1.pt.x then { updMM n arr.b1 2 arr with b1 := p }
        else updMM n p 2 arr).b0 = arr.b0
      split
      · exact ih arr.b1 2 arr (by omega)
      · exact ih p 2 arr (by omega)
    · show (if p.pt.y < arr.b2.pt.y then { updMM n arr.b2 3 arr with b2 := p }
        else updMM n p 3 arr).b0 = arr.b0
      split
      · exact ih arr.b2 3 arr (by omega)
      · exact ih p 3 arr (by omega)
    · show (if p.pt.y > arr.b3.pt.y then { updMM n arr.b3 4 arr with b3 := p }
        else updMM n p 4 arr).b0 = arr.b0
      split
      · exact ih arr.b3 4 arr (by omega)
      · exact ih p 4 arr (by omega)
    · show (if p.pt.z < arr.b4.pt.z then { updMM n arr.b4 5 arr with b4 := p }
        else updMM n p 5 arr).b0 = arr.b0
      split
      · exact ih arr.b4 5 arr (by omega)
      · exact ih p 5 arr (by omega)
    · show (if p.pt.z > arr.b5.pt.z then { arr with b5 := p }
        else updMM n p 6 arr).b0 = arr.b0
      split
      · rfl
      · exact ih p 6 arr (by omega)
    · rfl

theorem updMM_b1_stable :
    ∀ (fuel : ℕ) (p : Pair) (start : ℕ) (arr : Bounds), 2 ≤ start →
      (updMM fuel p start arr).b1 = arr.b1 := by
  intro fuel
  induction fuel with
  | zero => intro p start arr _; rfl
  | succ n ih =>
    intro p start arr h
    rcases start with _ | _ | _ | _ | _ | _ | m
    · omega
    · omega
    · show (if p.pt.y < arr.b2.pt.y then { updMM n arr.b2 3 arr with b2 := p }
        else updMM n p 3 arr).b1 = arr.b1
      split
      · exact ih arr.b2 3 arr (by omega)
      · exact ih p 3 arr (by omega)
    · show (if p.pt.y > arr.b3.pt.y then { updMM n arr.b3 4 arr with b3 := p }
        else updMM n p 4 arr).b1 = arr.b1
      split
      · exact ih arr.b3 4 arr (by omega)
      · exact ih p 4 arr (by omega)
    · show (if p.pt.z < arr.b4.pt.z then { updMM n arr.b4 5 arr with b4 := p }
        else updMM n p 5 arr).b1 = arr.b1
      split
      · exact ih arr.b4 5 arr (by omega)
      · exact ih p 5 arr (by omega)
    · show (if p.pt.z > arr.b5.pt.z then { arr with b5 := p }
        else updMM n p 6 arr).b1 = arr.b1
      split
      · rfl
      · exact ih p 6 arr (by omega)
    · rfl

theorem updMM_zero_b0 (p : Pair) (arr : Bounds) :
    (updMM 7 p 0 arr).b0 = if p.pt.x < arr.b0.pt.x then p else arr.b0 := by
  show (if p.pt.x < arr.b0.pt.x then { updMM 6 arr.b0 1 arr with b0 := p }
    else updMM 6 p 1 arr).b0 = _
  split
  · rfl
  · exact updMM_b0_stable 6 p 1 arr (by omega)

theorem updMM_zero_b1 (p : Pair) (arr : Bounds) (hinv : arr.b0.pt.x ≤ arr.b1.pt.x) :
    (updMM 7 p 0 arr).b1 = if p.pt.x > arr.b1.pt.x then p else arr.b1 := by
  show (if p.pt.x < arr.b0.pt.x then { updMM 6 arr.b0 1 arr with b0 := p }
    else updMM 6 p 1 arr).b1 = _
  split
  · rename_i hlt
    show (updMM 6 arr.b0 1 arr).b1 = _
    show (if arr.b0.pt.x > arr.b1.pt.x then { updMM 5 arr.b1 2 arr with b1 := arr.b0 }
      else updMM 5 arr.b0 2 arr).b1 = _
    rw [if_neg (by push_neg; exact hinv), updMM_b1_stable 5 arr.b0 2 arr (by omega),
      if_neg (by push_neg; linarith)]
  · rename_i hge
    show (if p.pt.x > arr.b1.pt.x then { updMM 5 arr.b1 2 arr with b1 := p }
      else updMM 5 p 2 arr).b1 = _
    split
    · rfl
    · exact updMM_b1_stable 5 p 2 arr (by omega)

theorem foldBounds_b01 :
    ∀ (l : List (ℕ × Vec3)) (arrR arrF : Bounds),
      arrR.b0 = arrF.b0 → arrR.b1 = arrF.b1 → arrR.b0.pt.x ≤ arrR.b1.pt.x →
      (l.foldl (fun a ip => updMM 7 ⟨ip.1, ip.2⟩ 0 a) arrR).b0 = (l.foldl flatUpd arrF).b0 ∧
      (l.foldl (fun a ip => updMM 7 ⟨ip.1, ip.2⟩ 0 a) arrR).b1 = (l.foldl flatUpd arrF).b1 := by
  intro l
  induction l with
  | nil => intro arrR arrF h0 h1 _; exact ⟨h0, h1⟩
  | cons ip t ih =>
    intro arrR arrF h0 h1 hinv
    rw [List.foldl_cons, List.foldl_cons]
    have hstep0 : (updMM 7 ⟨ip.1, ip.2⟩ 0 arrR).b0 = (flatUpd arrF ip).b0 := by
      rw [updMM_zero_b0, h0]
      rfl
    have hstep1 : (updMM 7 ⟨ip.1, ip.2⟩ 0 arrR).b1 = (flatUpd arrF ip).b1 := by
      rw [updMM_zero_b1 _ _ hinv, h1]
      rfl
    refine ih _ _ hstep0 hstep1 ?_
    rw [updMM_zero_b0, updMM_zero_b1 _ _ hinv]
    split <;> split <;> linarith

/-- C8 amended: the recursive six-slot search agrees with the flat one-pass
tracker loop on slot 0 (min-x) and slot 1 (max-x) for every input; the y/z
slots can differ, because a point absorbed by an earlier slot is never tried
on later slots. -/
theorem c8_amended_first_two_slots_agree (pts : List Vec3) :
    (computeBounds pts).b0 = (flatBounds pts).b0 ∧
      (computeBounds pts).b1 = (flatBounds pts).b1 := by
  unfold computeBounds flatBounds
  exact foldBounds_b01 pts.enum _ _ rfl rfl (le_refl _)

theorem Vec3.normSq_nonneg (v : Vec3) : 0 ≤ v.normSq := by
  unfold Vec3.normSq Vec3.dot
  have := mul_self_nonneg v.x
  have := mul_self_nonneg v.y
  have := mul_self_nonneg v.z
  linarith

/-- Modelled from the spec: the squared perpendicular distance from `target`
to the INFINITE line through `p0` and `p1` (the claim's distance), for the
refinement comparison with the source's segment distance. -/
def linePerpDistSq (p0 p1 target : Vec3) : ℝ :=
  (target - p0).normSq - Vec3.dot (target - p0) (p1 - p0) ^ 2 / (p1 - p0).normSq

theorem linePerpDistSq_nonneg (p0 p1 c : Vec3) : 0 ≤ linePerpDistSq p0 p1 c := by
  unfold linePerpDistSq
  rcases eq_or_ne (p1 - p0).normSq 0 with h | h
  · rw [h, div_zero, sub_zero]
    exact Vec3.normSq_nonneg _
  · have hpos : 0 < (p1 - p0).normSq := lt_of_le_of_ne (Vec3.normSq_nonneg _) (Ne.symm h)
    rw [sub_nonneg, div_le_iff₀ hpos]
    have lag : Vec3.dot (c - p0) (p1 - p0) ^ 2 + (Vec3.cross (c - p0) (p1 - p0)).normSq
        = (c - p0).normSq * (p1 - p0).normSq := by
      obtain ⟨ax, ay, az⟩ := p0
      obtain ⟨bx, bb, bz⟩ := p1
      obtain ⟨cx, cy, cz⟩ := c
      simp only [Vec3.sub_def, Vec3.normSq, Vec3.dot, Vec3.cross]
      ring
    have hc := Vec3.normSq_nonneg (Vec3.cross (c - p0) (p1 - p0))
    nlinarith

/-- The segment distance of `line_to_pt_dist_sq` agrees with the
perpendicular distance to the infinite line whenever the target is no further
from either endpoint than the endpoints are from each other (which holds for
every extreme-point candidate once `(p0, p1)` is the maximum-distance pair). -/
theorem lineToPt_eq_linePerp (pt1 pt2 target : Vec3)
    (h1 : (target - pt1).normSq ≤ (pt2 - pt1).normSq)
    (h2 : (target - pt2).normSq ≤ (pt2 - pt1).normSq) :
    lineToPtDistSq pt1 pt2 target = linePerpDistSq pt1 pt2 target := by
  obtain ⟨ax, ay, az⟩ := pt1
  obtain ⟨bx, bb, bz⟩ := pt2
  obtain ⟨cx, cy, cz⟩ := target
  simp only [lineToPtDistSq, linePerpDistSq, Vec3.sub_def, Vec3.normSq, Vec3.dot] at *
  split_ifs with ha hb
  · -- the projection parameter cannot be negative for a candidate
    exfalso
    nlinarith [mul_self_nonneg (cx - ax), mul_self_nonneg (cy - ay), mul_self_nonneg (cz - az)]
  · -- the clamped-at-far-end branch forces target = pt2, both sides are 0
    push_neg at ha
    have hnn : (0 : ℝ) ≤ (cx - bx) * (cx - bx) + (cy - bb) * (cy - bb) + (cz - bz) * (cz - bz) :=
      add_nonneg (add_nonneg (mul_self_nonneg _) (mul_self_nonneg _)) (mul_self_nonneg _)
    have hle : (cx - bx) * (cx - bx) + (cy - bb) * (cy - bb) + (cz - bz) * (cz - bz) ≤ 0 := by
      nlinarith
    have hzero : (cx - bx) * (cx - bx) + (cy - bb) * (cy - bb) + (cz - bz) * (cz - bz) = 0 :=
      le_antisymm hle hnn
    have hx : cx = bx := by
      have h' : (cx - bx) * (cx - bx) = 0 := by
        nlinarith [mul_self_nonneg (cy - bb), mul_self_nonneg (cz - bz),
          mul_self_nonneg (cx - bx)]
      have := mul_self_eq_zero.mp h'
      linarith
    have hy : cy = bb := by
      have h' : (cy - bb) * (cy - bb) = 0 := by
        nlinarith [mul_self_nonneg (cx - bx), mul_self_nonneg (cz - bz),
          mul_self_nonneg (cy - bb)]
      have := mul_self_eq_zero.mp h'
      linarith
    have hz : cz = bz := by
      have h' : (cz - bz) * (cz - bz) = 0 := by
        nlinarith [mul_self_nonneg (cx - bx), mul_self_nonneg (cy - bb),
          mul_self_nonneg (cz - bz)]
      have := mul_self_eq_zero.mp h'
      linarith
    have hA : (cx - ax) * (cx - ax) + (cy - ay) * (cy - ay) + (cz - az) * (cz - az)
        = (bx - ax) * (bx - ax) + (bb - ay) * (bb - ay) + (bz - az) * (bz - az) := by
      rw [hx, hy, hz]
    have hB : (cx - ax) * (bx - ax) + (cy - ay) * (bb - ay) + (cz - az) * (bz - az)
        = (bx - ax) * (bx - ax) + (bb - ay) * (bb - ay) + (bz - az) * (bz - az) := by
      rw [hx, hy, hz]
    rw [hzero, hA, hB]
    by_cases hL : (bx - ax) * (bx - ax) + (bb - ay) * (bb - ay) + (bz - az) * (bz - az) = 0
    · rw [hL]
      norm_num
    · field_simp
      ring
  · ring

/-- The `p2` selection loop of `get_extreme_points` (lines 119-128), expressed
as structural recursion over the boundary list with the running
`(p2, line_dist_sq_max)` accumulator. -/
def selectP2Go (p0 p1 : Pair) : List Pair → Pair × ℝ → Pair × ℝ
  | [], acc => acc
  | pr :: rest, acc =>
    if pr.idx = p0.idx ∨ pr.idx = p1.idx then selectP2Go p0 p1 rest acc
    else if lineToPtDistSq p0.pt p1.pt pr.pt > acc.2 then
      selectP2Go p0 p1 rest (pr, lineToPtDistSq p0.pt p1.pt pr.pt)
    else selectP2Go p0 p1 rest acc

/-- The selected `p2`: the loop starting from `p2 = boundaries[0]` and
`line_dist_sq_max = 0.0`. -/
def selectP2 (bl : List Pair) (p0 p1 init : Pair) : Pair :=
  (selectP2Go p0 p1 bl (init, 0)).1

/-- Modelled from the spec: the same selection loop with the infinite-line
perpendicular distance in place of the segment distance. -/
def selectP2SpecGo (p0 p1 : Pair) : List Pair → Pair × ℝ → Pair × ℝ
  | [], acc => acc
  | pr :: rest, acc =>
    if pr.idx = p0.idx ∨ pr.idx = p1.idx then selectP2SpecGo p0 p1 rest acc
    else if linePerpDistSq p0.pt p1.pt pr.pt > acc.2 then
      selectP2SpecGo p0 p1 rest (pr, linePerpDistSq p0.pt p1.pt pr.pt)
    else selectP2SpecGo p0 p1 rest acc

/-- Modelled from the spec: the `p2` maximizing perpendicular distance to the
infinite line. -/
def selectP2Spec (bl : List Pair) (p0 p1 init : Pair) : Pair :=
  (selectP2SpecGo p0 p1 bl (init, 0)).1

theorem selectP2Go_eq_spec (p0 p1 : Pair) :
    ∀ (l : List Pair) (acc : Pair × ℝ),
      (∀ pr ∈ l, (pr.pt - p0.pt).normSq ≤ (p1.pt - p0.pt).normSq ∧
        (pr.pt - p1.pt).normSq ≤ (p1.pt - p0.pt).normSq) →
      selectP2Go p0 p1 l acc = selectP2SpecGo p0 p1 l acc := by
  intro l
  induction l with
  | nil => intro acc _; rfl
  | cons pr rest ih =>
    intro acc h
    have hpr := h pr (List.mem_cons_self pr rest)
    have htail : ∀ q ∈ rest, (q.pt - p0.pt).normSq ≤ (p1.pt - p0.pt).normSq ∧
        (q.pt - p1.pt).normSq ≤ (p1.pt - p0.pt).normSq :=
      fun q hq => h q (List.mem_cons_of_mem pr hq)
    have hd : lineToPtDistSq p0.pt p1.pt pr.pt = linePerpDistSq p0.pt p1.pt pr.pt :=
      lineToPt_eq_linePerp _ _ _ hpr.1 hpr.2
    by_cases hskip : pr.idx = p0.idx ∨ pr.idx = p1.idx
    · rw [selectP2Go, selectP2SpecGo, if_pos hskip, if_pos hskip]
      exact ih acc htail
    · rw [selectP2Go, selectP2SpecGo, if_neg hskip, if_neg hskip, hd]
      split
      · exact ih _ htail
      · exact ih acc htail

theorem selectP2Go_attains (p0 p1 : Pair) :
    ∀ (l : List Pair) (acc : Pair × ℝ),
      (∀ pr ∈ l, (pr.pt - p0.pt).normSq ≤ (p1.pt - p0.pt).normSq ∧
        (pr.pt - p1.pt).normSq ≤ (p1.pt - p0.pt).normSq) →
      0 ≤ acc.2 → acc.2 ≤ linePerpDistSq p0.pt p1.pt acc.1.pt →
      0 ≤ (selectP2Go p0 p1 l acc).2 ∧
        acc.2 ≤ (selectP2Go p0 p1 l acc).2 ∧
        (selectP2Go p0 p1 l acc).2
          ≤ linePerpDistSq p0.pt p1.pt (selectP2Go p0 p1 l acc).1.pt ∧
        ∀ pr ∈ l, pr.idx ≠ p0.idx → pr.idx ≠ p1.idx →
          linePerpDistSq p0.pt p1.pt pr.pt ≤ (selectP2Go p0 p1 l acc).2 := by
  intro l
  induction l with
  | nil =>
    intro acc _ h0 hle
    exact ⟨h0, le_refl _, hle, by simp⟩
  | cons pr rest ih =>
    intro acc h h0 hle
    have hpr := h pr (List.mem_cons_self pr rest)
    have htail : ∀ q ∈ rest, (q.pt - p0.pt).normSq ≤ (p1.pt - p0.pt).normSq ∧
        (q.pt - p1.pt).normSq ≤ (p1.pt - p0.pt).normSq :=
      fun q hq => h q (List.mem_cons_of_mem pr hq)
    have hd : lineToPtDistSq p0.pt p1.pt pr.pt = linePerpDistSq p0.pt p1.pt pr.pt :=
      lineToPt_eq_linePerp _ _ _ hpr.1 hpr.2
    by_cases hskip : pr.idx = p0.idx ∨ pr.idx = p1.idx
    · rw [selectP2Go, if_pos hskip]
      obtain ⟨r0, rmono, rle, rall⟩ := ih acc htail h0 hle
      refine ⟨r0, rmono, rle, ?_⟩
      intro q hq hn0 hn1
      rcases List.mem_cons.mp hq with rfl | hq'
      · rcases hskip with hh | hh
        · exact absurd hh hn0
        · exact absurd hh hn1
      · exact rall q hq' hn0 hn1
    · rw [selectP2Go, if_neg hskip]
      by_cases hgt : lineToPtDistSq p0.pt p1.pt pr.pt > acc.2
      · rw [if_pos hgt]
        have hacc' : (0 : ℝ) ≤ (pr, lineToPtDistSq p0.pt p1.pt pr.pt).2 := by
          simp only []
          linarith
        have hleq : (pr, lineToPtDistSq p0.pt p1.pt pr.pt).2
            ≤ linePerpDistSq p0.pt p1.pt (pr, lineToPtDistSq p0.pt p1.pt pr.pt).1.pt := by
          simp only []
          rw [hd]
        obtain ⟨r0, rmono, rle, rall⟩ := ih _ htail hacc' hleq
        refine ⟨r0, ?_, rle, ?_⟩
        · calc acc.2 ≤ lineToPtDistSq p0.pt p1.pt pr.pt := le_of_lt hgt
            _ ≤ _ := rmono
        · intro q hq hn0 hn1
          rcases List.mem_cons.mp hq with rfl | hq'
          · rw [← hd]
            exact rmono
          · exact rall q hq' hn0 hn1
      · rw [if_neg hgt]
        push_neg at hgt
        obtain ⟨r0, rmono, rle, rall⟩ := ih acc htail h0 hle
        refine ⟨r0, rmono, rle, ?_⟩
        intro q hq hn0 hn1
        rcases List.mem_cons.mp hq with rfl | hq'
        · rw [← hd]
          exact le_trans hgt rmono
        · exact rall q hq' hn0 hn1

/-- C7: given `(p0, p1)` the maximum-squared-distance pair over the extreme
candidates, the `p2` selection loop selects the same pair as the loop that
maximizes squared perpendicular distance to the infinite line through `p0`
and `p1`, and the selected `p2` attains the maximum of that distance over all
candidates other than `p0` and `p1`. -/
theorem c7_p2_maximizes_line_distance (bl : List Pair) (p0 p1 init : Pair)
    (h : ∀ pr ∈ bl, (pr.pt - p0.pt).normSq ≤ (p1.pt - p0.pt).normSq ∧
      (pr.pt - p1.pt).normSq ≤ (p1.pt - p0.pt).normSq) :
    selectP2 bl p0 p1 init = selectP2Spec bl p0 p1 init ∧
      ∀ pr ∈ bl, pr.idx ≠ p0.idx → pr.idx ≠ p1.idx →
        linePerpDistSq p0.pt p1.pt pr.pt
          ≤ linePerpDistSq p0.pt p1.pt (selectP2 bl p0 p1 init).pt := by
  constructor
  · unfold selectP2 selectP2Spec
    rw [selectP2Go_eq_spec p0 p1 bl (init, 0) h]
  · intro pr hpr hn0 hn1
    have hA := selectP2Go_attains p0 p1 bl (init, 0) h (le_refl 0)
      (by simpa using linePerpDistSq_nonneg p0.pt p1.pt init.pt)
    exact le_trans (hA.2.2.2 pr hpr hn0 hn1) hA.2.2.1

/-- Concrete extreme-candidate list for the C7 witness. -/
def bsW : List Pair :=
  [⟨0, ⟨0, 0, 0⟩⟩, ⟨1, ⟨2, 0, 0⟩⟩, ⟨2, ⟨1, 1, 0⟩⟩, ⟨0, ⟨0, 0, 0⟩⟩, ⟨0, ⟨0, 0, 0⟩⟩,
    ⟨0, ⟨0, 0, 0⟩⟩]

theorem c7_witness :
    selectP2 bsW ⟨0, ⟨0, 0, 0⟩⟩ ⟨1, ⟨2, 0, 0⟩⟩ ⟨0, ⟨0, 0, 0⟩⟩
        = selectP2Spec bsW ⟨0, ⟨0, 0, 0⟩⟩ ⟨1, ⟨2, 0, 0⟩⟩ ⟨0, ⟨0, 0, 0⟩⟩ := by
  refine (c7_p2_maximizes_line_distance bsW _ _ _ ?_).1
  intro pr hpr
  rcases List.mem_cons.mp hpr with rfl | hpr
  · constructor <;> norm_num [Vec3.normSq, Vec3.dot, Vec3.sub_def]
  rcases List.mem_cons.mp hpr with rfl | hpr
  · constructor <;> norm_num [Vec3.normSq, Vec3.dot, Vec3.sub_def]
  rcases List.mem_cons.mp hpr with rfl | hpr
  · constructor <;> norm_num [Vec3.normSq, Vec3.dot, Vec3.sub_def]
  rcases List.mem_cons.mp hpr with rfl | hpr
  · constructor <;> norm_num [Vec3.normSq, Vec3.dot, Vec3.sub_def]
  rcases List.mem_cons.mp hpr with rfl | hpr
  · constructor <;> norm_num [Vec3.normSq, Vec3.dot, Vec3.sub_def]
  rcases List.mem_cons.mp hpr with rfl | hpr
  · constructor <;> norm_num [Vec3.normSq, Vec3.dot, Vec3.sub_def]
  · exact absurd hpr (List.not_mem_nil pr)

/-- All index pairs `(boundaries[i], boundaries[j])` with `i < j`, in the
iteration order of the nested loop of `get_extreme_points` (lines 108-117). -/
def upperPairs : List Pair → List (Pair × Pair)
  | [] => []
  | x :: xs => (xs.map fun y => (x, y)) ++ upperPairs xs

/-- The `(p0, p1)` selection of `get_extreme_points`: start from
`(boundaries[0], boundaries[1])` with their squared distance and take every
strictly larger pair. -/
def selectP0P1 (bl : List Pair) (init0 init1 : Pair) : Pair × (Pair × ℝ) :=
  (upperPairs bl).foldl
    (fun acc ab =>
      if (ab.1.pt - ab.2.pt).normSq > acc.2.2 then (ab.1, (ab.2, (ab.1.pt - ab.2.pt).normSq))
      else acc)
    (init0, (init1, (init0.pt - init1.pt).normSq))

/-- The `p3` selection loop of `get_extreme_points` (lines 130-140): maximum
squared distance to the `(p0,p1,p2)` triangle center, skipping the indices of
`p0`, `p1`, `p2`. -/
def selectP3Go (p0 p1 p2 : Pair) (faceCenter : Vec3) : List Pair → Pair × ℝ → Pair × ℝ
  | [], acc => acc
  | pr :: rest, acc =>
    if pr.idx = p0.idx ∨ pr.idx = p1.idx ∨ pr.idx = p2.idx then
      selectP3Go p0 p1 p2 faceCenter rest acc
    else if (pr.pt - faceCenter).normSq > acc.2 then
      selectP3Go p0 p1 p2 faceCenter rest (pr, (pr.pt - faceCenter).normSq)
    else selectP3Go p0 p1 p2 faceCenter rest acc

/-- The boundary array as the list iterated by the selection loops. -/
def Bounds.toList (bd : Bounds) : List Pair := [bd.b0, bd.b1, bd.b2, bd.b3, bd.b4, bd.b5]

/-- `get_extreme_points` from `gungame/src/convex_hull.rs`: fill the six
boundary slots, pick the diameter pair, then `p2` and `p3`, and return the
tetrahedron vertex order. -/
def getExtremePoints (list : List Vec3) : List ℕ :=
  let boundaries := computeBounds list
  let bl := boundaries.toList
  let pp := selectP0P1 bl boundaries.b0 boundaries.b1
  let p2 := selectP2 bl pp.1 pp.2.1 boundaries.b0
  let p3 := (selectP3Go pp.1 pp.2.1 p2 (triangleCenter pp.1.pt pp.2.1.pt p2.pt) bl
    (boundaries.b0, 0)).1
  constructTetrahedronOrder pp.1 pp.2.1 p2 p3

/-- A triangular face of the half-edge mesh, keyed by a stable id.
Modelled from the spec: the Half-Edge Mesh collaborator (the external
`half_edge_mesh` crate, not under `src/`) keys faces by a stable identifier. -/
structure Face where
  id : ℕ
  pa : Vec3
  pb : Vec3
  pc : Vec3

/-- Modelled from the spec: the Half-Edge Mesh as its set of triangular
faces. -/
structure HEMesh where
  faces : List Face

/-- `HalfEdgeMesh::empty()`: the explicit empty-hull sentinel. -/
def HEMesh.empty : HEMesh := ⟨[]⟩

/-- Modelled from the spec: the small positive visibility tolerance of the
mesh collaborator ("a small positive epsilon", exact value an implementation
choice). -/
def visEps : ℝ := 1 / 10000

/-- Modelled from the spec: "signed distance from this face's plane to P". -/
def directedDistance (f : Face) (p : Vec3) : ℝ :=
  Vec3.dot (p - f.pa) (triangleNormal f.pa f.pb f.pc)

/-- Modelled from the spec: "can this face see point P" — P strictly outside
the face's plane beyond the tolerance. -/
def canSee (f : Face) (p : Vec3) : Prop := directedDistance f p > visEps

/-- Modelled from the spec: `from_tetrahedron_pts` builds the initial 4-face
closed mesh from the four seed points (no degeneracy validation). -/
def fromTetrahedronPts (q1 q2 q3 q4 : Vec3) : HEMesh :=
  ⟨[⟨0, q1, q2, q3⟩, ⟨1, q1, q3, q4⟩, ⟨2, q1, q4, q2⟩, ⟨3, q2, q4, q3⟩]⟩

/-- Descending insertion used to model
`tet_points.sort_by(|a, b| a.cmp(b).reverse())`. -/
def sortDescInsert (n : ℕ) : List ℕ → List ℕ
  | [] => [n]
  | m :: t => if m ≤ n then n :: m :: t else m :: sortDescInsert n t

/-- Descending sort of the tetrahedron indices. -/
def sortDesc (l : List ℕ) : List ℕ := l.foldr sortDescInsert []

/-- `Vec::dedup`: removes consecutive duplicates. -/
def dedupConsec : List ℕ → List ℕ
  | [] => []
  | [a] => [a]
  | a :: b :: t => if a = b then dedupConsec (b :: t) else a :: dedupConsec (b :: t)

/-- The seed-removal loop:
`for i in tet_points { if i < points_list.len() { points_list.remove(i); } }`. -/
def removeIdxs (pts : List Vec3) (idxs : List ℕ) : List Vec3 :=
  idxs.foldl (fun l i => if i < l.length then l.eraseIdx i else l) pts

/-- The post-attach re-filter of the face expansion loop (lines 191-193):
keep `p` when it was not among the POPPED face's visible points or some newly
created face sees it. -/
def postAttachRetain (pts faceVisible : List Vec3) (newFaces : List Face) : List Vec3 :=
  pts.filter fun p =>
    (faceVisible.all fun q => decide (q ≠ p)) || (newFaces.any fun f => decide (canSee f p))

/-- The face expansion loop of `build_convex_hull` (lines 163-199).  The
`attach` parameter is the external mesh collaborator's
`attach_point_for_faces`; `fuel` totalizes the while loop, whose termination
in the source is geometric. -/
def hullLoop (attach : Vec3 → List Face → HEMesh → Except String (HEMesh × List Face)) :
    ℕ → HEMesh → List Vec3 → List Face → HEMesh
  | 0, mesh, _, _ => mesh
  | fuel + 1, mesh, pts, queue =>
    match queue with
    | [] => mesh
    | testFace :: rest =>
      if ¬ mesh.faces.any (fun f => f.id = testFace.id) then
        hullLoop attach fuel mesh pts rest
      else
        let faceVisible := pts.filter fun p => decide (canSee testFace p)
        let pmax := (faceVisible.enum.foldl
          (fun acc ip =>
            if directedDistance testFace ip.2 > acc.2 then
              ((some (ip.1, ip.2) : Option (ℕ × Vec3)), directedDistance testFace ip.2)
            else acc)
          ((none : Option (ℕ × Vec3)), 0)).1
        match pmax with
        | none => hullLoop attach fuel mesh pts rest
        | some (maxIdx, maxPt) =>
          let pts' := pts.eraseIdx maxIdx
          let lightFaces := mesh.faces.filter fun f => decide (canSee f maxPt)
          match attach maxPt lightFaces mesh with
          | Except.ok (mesh', newFaces) =>
            hullLoop attach fuel mesh' (postAttachRetain pts' faceVisible newFaces)
              (rest ++ newFaces)
          | Except.error _ => hullLoop attach fuel mesh pts' rest

/-- `build_convex_hull` from `gungame/src/convex_hull.rs`: the `< 4` early
return, seed selection, tetrahedron mesh, seed removal (descending sort +
dedup + guarded remove), visibility pruning, and the expansion loop. -/
def buildConvexHull (attach : Vec3 → List Face → HEMesh → Except String (HEMesh × List Face))
    (fuel : ℕ) (pointsList : List Vec3) : HEMesh :=
  if pointsList.length < 4 then HEMesh.empty
  else
    let tetPoints := getExtremePoints pointsList
    let hullMesh := fromTetrahedronPts
      (pointsList.getD (tetPoints.getD 0 0) vzero)
      (pointsList.getD (tetPoints.getD 1 0) vzero)
      (pointsList.getD (tetPoints.getD 2 0) vzero)
      (pointsList.getD (tetPoints.getD 3 0) vzero)
    let pts := removeIdxs pointsList (dedupConsec (sortDesc tetPoints))
    let pts2 := pts.filter fun p => hullMesh.faces.any fun f => decide (canSee f p)
    hullLoop attach fuel hullMesh pts2 hullMesh.faces

/-- A trivial attach operation for closed instances on which the expansion
loop never reaches a successful attach. -/
def attachNever : Vec3 → List Face → HEMesh → Except String (HEMesh × List Face) :=
  fun _ _ _ => Except.error "unused"

/-- Modelled from the spec: the claim's re-filter — a point is dropped when it
was visible to ANY now-removed light face and is not visible to any newly
created face; points visible to some new face remain. -/
def specRefilter (pts : List Vec3) (lightFaces newFaces : List Face) : List Vec3 :=
  pts.filter fun p =>
    (! lightFaces.any fun f => decide (canSee f p))
      || (newFaces.any fun f => decide (canSee f p))

/-- Evaluation helper: when the cross product of the edges is a known unit
vector, the triangle normal is that vector. -/
theorem triangleNormal_eval (q1 q2 q3 w : Vec3)
    (hc : Vec3.cross (q2 - q1) (q3 - q1) = w) (hw : w.normSq = 1) :
    triangleNormal q1 q2 q3 = w := by
  unfold triangleNormal
  rw [hc]
  exact Vec3.normalize_of_normSq_one hw

/-- Popped face for the C6 counterexample: the `z = 0` plane facing `+z`. -/
def faceA : Face := ⟨0, ⟨0, 0, 0⟩, ⟨1, 0, 0⟩, ⟨0, 1, 0⟩⟩

/-- Another light face: the `x = 0` plane facing `+x`. -/
def faceB : Face := ⟨1, ⟨0, 0, 0⟩, ⟨0, 1, 0⟩, ⟨0, 0, 1⟩⟩

/-- A new face: the `z = 10` plane facing `+z`. -/
def faceN : Face := ⟨2, ⟨0, 0, 10⟩, ⟨1, 0, 10⟩, ⟨0, 1, 10⟩⟩

/-- The working-set point of the C6 counterexample. -/
def qPt : Vec3 := ⟨5, 0, 0⟩

theorem dd_faceA_q : directedDistance faceA qPt = 0 := by
  unfold directedDistance faceA qPt
  rw [triangleNormal_eval _ _ _ ⟨0, 0, 1⟩
    (by norm_num [Vec3.cross, Vec3.sub_def, Vec3.mk.injEq])
    (by norm_num [Vec3.normSq, Vec3.dot])]
  norm_num [Vec3.dot, Vec3.sub_def]

theorem dd_faceB_q : directedDistance faceB qPt = 5 := by
  unfold directedDistance faceB qPt
  rw [triangleNormal_eval _ _ _ ⟨1, 0, 0⟩
    (by norm_num [Vec3.cross, Vec3.sub_def, Vec3.mk.injEq])
    (by norm_num [Vec3.normSq, Vec3.dot])]
  norm_num [Vec3.dot, Vec3.sub_def]

theorem dd_faceN_q : directedDistance faceN qPt = -10 := by
  unfold directedDistance faceN qPt
  rw [triangleNormal_eval _ _ _ ⟨0, 0, 1⟩
    (by norm_num [Vec3.cross, Vec3.sub_def, Vec3.mk.injEq])
    (by norm_num [Vec3.normSq, Vec3.dot])]
  norm_num [Vec3.dot, Vec3.sub_def]

/-- C6 counterexample: `qPt` is visible to light face `faceB` but not to the
popped face `faceA` and not to the new face `faceN`.  The code's re-filter
(which consults only the popped face's visible set) keeps `qPt`, while the
claim's re-filter (visibility to any removed light face) drops it. -/
theorem c6_counterexample :
    canSee faceB qPt ∧ ¬ canSee faceA qPt ∧ ¬ canSee faceN qPt ∧
      postAttachRetain [qPt] ([qPt].filter fun p => decide (canSee faceA p)) [faceN]
        ≠ specRefilter [qPt] [faceA, faceB] [faceN] := by
  have hA : ¬ canSee faceA qPt := by
    unfold canSee
    rw [dd_faceA_q]
    norm_num [visEps]
  have hB : canSee faceB qPt := by
    unfold canSee
    rw [dd_faceB_q]
    norm_num [visEps]
  have hN : ¬ canSee faceN qPt := by
    unfold canSee
    rw [dd_faceN_q]
    norm_num [visEps]
  refine ⟨hB, hA, hN, ?_⟩
  have hLeft :
      postAttachRetain [qPt] ([qPt].filter fun p => decide (canSee faceA p)) [faceN]
        = [qPt] := by
    unfold postAttachRetain
    simp [hA, hN]
  have hRight : specRefilter [qPt] [faceA, faceB] [faceN] = [] := by
    unfold specRefilter
    simp [hA, hB, hN]
  rw [hLeft, hRight]
  simp

/-- C6 amended: after a successful attach the working set is re-filtered
against the POPPED face only — a point is kept iff it is in the working set
and either was not visible to the popped face or is visible to some newly
created face.  Points visible only to another removed light face are
retained. -/
theorem c6_amended_refilter_uses_popped_face_only (pts : List Vec3) (popped : Face)
    (newFaces : List Face) (p : Vec3) :
    p ∈ postAttachRetain pts (pts.filter fun q => decide (canSee popped q)) newFaces
      ↔ p ∈ pts ∧ (¬ canSee popped p ∨ ∃ f ∈ newFaces, canSee f p) := by
  unfold postAttachRetain
  rw [List.mem_filter]
  simp only [Bool.or_eq_true, List.all_eq_true, List.any_eq_true, decide_eq_true_eq,
    List.mem_filter]
  constructor
  · rintro ⟨hp, hcond⟩
    refine ⟨hp, ?_⟩
    rcases hcond with hall | ⟨f, hf, hsee⟩
    · left
      intro hsee
      exact hall p ⟨hp, by simpa using hsee⟩ rfl
    · right
      exact ⟨f, hf, hsee⟩
  · rintro ⟨hp, hcond⟩
    rcases hcond with hnsee | ⟨f, hf, hsee⟩
    · refine ⟨hp, Or.inl ?_⟩
      intro q hq hqp
      exact hnsee (hqp ▸ (by simpa using hq.2))
    · exact ⟨hp, Or.inr ⟨f, hf, hsee⟩⟩

theorem Vec3.normalize_zero : Vec3.normalize ⟨0, 0, 0⟩ = ⟨0, 0, 0⟩ := by
  show Vec3.smul _ _ = _
  norm_num [Vec3.smul]

/-- Four coplanar points (all in the `z = 0` plane). -/
def ptsCoplanar : List Vec3 := [⟨0, 0, 0⟩, ⟨1, 0, 0⟩, ⟨0, 1, 0⟩, ⟨1, 1, 0⟩]

theorem computeBounds_coplanar :
    computeBounds ptsCoplanar
      = ⟨⟨0, ⟨0, 0, 0⟩⟩, ⟨1, ⟨1, 0, 0⟩⟩, ⟨0, ⟨0, 0, 0⟩⟩, ⟨2, ⟨0, 1, 0⟩⟩,
          ⟨0, ⟨0, 0, 0⟩⟩, ⟨0, ⟨0, 0, 0⟩⟩⟩ := by
  norm_num [computeBounds, updMM, ptsCoplanar,
    show ([(⟨0, 0, 0⟩ : Vec3), ⟨1, 0, 0⟩, ⟨0, 1, 0⟩, ⟨1, 1, 0⟩] : List Vec3).enum
      = [(0, ⟨0, 0, 0⟩), (1, ⟨1, 0, 0⟩), (2, ⟨0, 1, 0⟩), (3, ⟨1, 1, 0⟩)] from rfl]

theorem getExtremePoints_coplanar : getExtremePoints ptsCoplanar = [0, 2, 1, 0] := by
  have htn : triangleNormal ⟨1, 0, 0⟩ ⟨0, 1, 0⟩ ⟨0, 0, 0⟩ = ⟨0, 0, 1⟩ :=
    triangleNormal_eval _ _ _ _
      (by norm_num [Vec3.cross, Vec3.sub_def, Vec3.mk.injEq])
      (by norm_num [Vec3.normSq, Vec3.dot])
  unfold getExtremePoints
  rw [computeBounds_coplanar]
  norm_num [Bounds.toList, selectP0P1, upperPairs, selectP2, selectP2Go, selectP3Go,
    constructTetrahedronOrder, lineToPtDistSq, triangleCenter, htn,
    Vec3.normSq, Vec3.dot, Vec3.sub_def, Pair.mk.injEq, Vec3.mk.injEq]

theorem notSee_f0 : ¬ canSee ⟨0, ⟨0, 0, 0⟩, ⟨0, 1, 0⟩, ⟨1, 0, 0⟩⟩ ⟨1, 1, 0⟩ := by
  unfold canSee directedDistance
  rw [show triangleNormal (⟨0, 0, 0⟩ : Vec3) ⟨0, 1, 0⟩ ⟨1, 0, 0⟩ = ⟨0, 0, -1⟩ from
    triangleNormal_eval _ _ _ _
      (by norm_num [Vec3.cross, Vec3.sub_def, Vec3.mk.injEq])
      (by norm_num [Vec3.normSq, Vec3.dot])]
  norm_num [Vec3.dot, Vec3.sub_def, visEps]

theorem notSee_f1 : ¬ canSee ⟨1, ⟨0, 0, 0⟩, ⟨1, 0, 0⟩, ⟨0, 0, 0⟩⟩ ⟨1, 1, 0⟩ := by
  unfold canSee directedDistance
  rw [show triangleNormal (⟨0, 0, 0⟩ : Vec3) ⟨1, 0, 0⟩ ⟨0, 0, 0⟩ = ⟨0, 0, 0⟩ from by
    unfold triangleNormal
    rw [show Vec3.cross ((⟨1, 0, 0⟩ : Vec3) - ⟨0, 0, 0⟩) ((⟨0, 0, 0⟩ : Vec3) - ⟨0, 0, 0⟩)
        = ⟨0, 0, 0⟩ from by norm_num [Vec3.cross, Vec3.sub_def, Vec3.mk.injEq]]
    exact Vec3.normalize_zero]
  norm_num [Vec3.dot, Vec3.sub_def, visEps]

theorem notSee_f2 : ¬ canSee ⟨2, ⟨0, 0, 0⟩, ⟨0, 0, 0⟩, ⟨0, 1, 0⟩⟩ ⟨1, 1, 0⟩ := by
  unfold canSee directedDistance
  rw [show triangleNormal (⟨0, 0, 0⟩ : Vec3) ⟨0, 0, 0⟩ ⟨0, 1, 0⟩ = ⟨0, 0, 0⟩ from by
    unfold triangleNormal
    rw [show Vec3.cross ((⟨0, 0, 0⟩ : Vec3) - ⟨0, 0, 0⟩) ((⟨0, 1, 0⟩ : Vec3) - ⟨0, 0, 0⟩)
        = ⟨0, 0, 0⟩ from by norm_num [Vec3.cross, Vec3.sub_def, Vec3.mk.injEq]]
    exact Vec3.normalize_zero]
  norm_num [Vec3.dot, Vec3.sub_def, visEps]

theorem notSee_f3 : ¬ canSee ⟨3, ⟨0, 1, 0⟩, ⟨0, 0, 0⟩, ⟨1, 0, 0⟩⟩ ⟨1, 1, 0⟩ := by
  unfold canSee directedDistance
  rw [show triangleNormal (⟨0, 1, 0⟩ : Vec3) ⟨0, 0, 0⟩ ⟨1, 0, 0⟩ = ⟨0, 0, 1⟩ from
    triangleNormal_eval _ _ _ _
      (by norm_num [Vec3.cross, Vec3.sub_def, Vec3.mk.injEq])
      (by norm_num [Vec3.normSq, Vec3.dot])]
  norm_num [Vec3.dot, Vec3.sub_def, visEps]

theorem hullLoop_nil_pts
    (attach : Vec3 → List Face → HEMesh → Except String (HEMesh × List Face)) :
    ∀ (queue : List Face) (fuel : ℕ) (mesh : HEMesh), queue.length < fuel →
      hullLoop attach fuel mesh [] queue = mesh := by
  intro queue
  induction queue with
  | nil =>
    intro fuel mesh h
    obtain ⟨n, rfl⟩ : ∃ n, fuel = n + 1 := ⟨fuel - 1, by omega⟩
    rfl
  | cons f rest ih =>
    intro fuel mesh h
    obtain ⟨n, rfl⟩ : ∃ n, fuel = n + 1 := ⟨fuel - 1, by omega⟩
    have hrest : rest.length < n := by
      simp at h
      omega
    show hullLoop attach (n + 1) mesh [] (f :: rest) = mesh
    by_cases hc : ¬ mesh.faces.any (fun g => g.id = f.id)
    · show (if ¬ mesh.faces.any (fun g => g.id = f.id) then hullLoop attach n mesh [] rest
        else _) = mesh
      rw [if_pos hc]
      exact ih n mesh hrest
    · show (if ¬ mesh.faces.any (fun g => g.id = f.id) then hullLoop attach n mesh [] rest
        else _) = mesh
      rw [if_neg hc]
      exact ih n mesh hrest

theorem buildConvexHull_coplanar :
    buildConvexHull attachNever 10 ptsCoplanar
      = ⟨[⟨0, ⟨0, 0, 0⟩, ⟨0, 1, 0⟩, ⟨1, 0, 0⟩⟩, ⟨1, ⟨0, 0, 0⟩, ⟨1, 0, 0⟩, ⟨0, 0, 0⟩⟩,
          ⟨2, ⟨0, 0, 0⟩, ⟨0, 0, 0⟩, ⟨0, 1, 0⟩⟩, ⟨3, ⟨0, 1, 0⟩, ⟨0, 0, 0⟩, ⟨1, 0, 0⟩⟩]⟩ := by
  unfold buildConvexHull
  rw [if_neg (by norm_num [ptsCoplanar]), getExtremePoints_coplanar]
  have hmesh : fromTetrahedronPts (ptsCoplanar.getD (([0, 2, 1, 0] : List ℕ).getD 0 0) vzero)
      (ptsCoplanar.getD (([0, 2, 1, 0] : List ℕ).getD 1 0) vzero)
      (ptsCoplanar.getD (([0, 2, 1, 0] : List ℕ).getD 2 0) vzero)
      (ptsCoplanar.getD (([0, 2, 1, 0] : List ℕ).getD 3 0) vzero)
      = HEMesh.mk [⟨0, ⟨0, 0, 0⟩, ⟨0, 1, 0⟩, ⟨1, 0, 0⟩⟩, ⟨1, ⟨0, 0, 0⟩, ⟨1, 0, 0⟩, ⟨0, 0, 0⟩⟩,
          ⟨2, ⟨0, 0, 0⟩, ⟨0, 0, 0⟩, ⟨0, 1, 0⟩⟩, ⟨3, ⟨0, 1, 0⟩, ⟨0, 0, 0⟩, ⟨1, 0, 0⟩⟩] := rfl
  have hremove : removeIdxs ptsCoplanar (dedupConsec (sortDesc [0, 2, 1, 0]))
      = [⟨1, 1, 0⟩] := by
    norm_num [removeIdxs, dedupConsec, sortDesc, sortDescInsert, ptsCoplanar, List.eraseIdx]
  simp only [hmesh, hremove]
  have hfilter : List.filter
      (fun p => List.any [(⟨0, ⟨0, 0, 0⟩, ⟨0, 1, 0⟩, ⟨1, 0, 0⟩⟩ : Face),
        ⟨1, ⟨0, 0, 0⟩, ⟨1, 0, 0⟩, ⟨0, 0, 0⟩⟩, ⟨2, ⟨0, 0, 0⟩, ⟨0, 0, 0⟩, ⟨0, 1, 0⟩⟩,
        ⟨3, ⟨0, 1, 0⟩, ⟨0, 0, 0⟩, ⟨1, 0, 0⟩⟩] fun f => decide (canSee f p))
      [(⟨1, 1, 0⟩ : Vec3)] = [] := by
    simp [notSee_f0, notSee_f1, notSee_f2, notSee_f3]
  simp only [hfilter]
  exact hullLoop_nil_pts attachNever _ 10 _ (by norm_num)

/-- C2 counterexample: on four distinct coplanar points (a fully degenerate
input) `build_convex_hull` does not return the empty-hull sentinel: the only
degeneracy check in the source is `len < 4`, so the coplanar input proceeds to
tetrahedron construction and a non-empty (degenerate) 4-face mesh is
returned. -/
theorem c2_counterexample :
    ptsCoplanar.length = 4 ∧ (∀ p ∈ ptsCoplanar, p.z = 0) ∧
      buildConvexHull attachNever 10 ptsCoplanar ≠ HEMesh.empty := by
  refine ⟨rfl, ?_, ?_⟩
  · intro p hp
    rcases List.mem_cons.mp hp with rfl | hp
    · rfl
    rcases List.mem_cons.mp hp with rfl | hp
    · rfl
    rcases List.mem_cons.mp hp with rfl | hp
    · rfl
    rcases List.mem_cons.mp hp with rfl | hp
    · rfl
    · exact absurd hp (List.not_mem_nil p)
  · rw [buildConvexHull_coplanar]
    intro h
    have hlen := congrArg (fun m : HEMesh => m.faces.length) h
    simp [HEMesh.empty] at hlen

/-- C2 amended: an input with fewer than 4 points yields the explicit
empty-hull sentinel (for every attach collaborator and fuel); but a fully
degenerate input with ≥ 4 points is NOT detected and yields a non-empty
degenerate mesh. -/
theorem c2_amended_fewer_than_four_empty
    (attach : Vec3 → List Face → HEMesh → Except String (HEMesh × List Face))
    (fuel : ℕ) (pts : List Vec3) (h : pts.length < 4) :
    buildConvexHull attach fuel pts = HEMesh.empty := by
  unfold buildConvexHull
  rw [if_pos h]

theorem c2_amended_witness :
    ([(⟨0, 0, 0⟩ : Vec3), ⟨1, 0, 0⟩, ⟨0, 1, 0⟩] : List Vec3).length < 4 ∧
      buildConvexHull attachNever 10 [⟨0, 0, 0⟩, ⟨1, 0, 0⟩, ⟨0, 1, 0⟩] = HEMesh.empty :=
  ⟨by norm_num, c2_amended_fewer_than_four_empty attachNever 10 _ (by norm_num)⟩

end Gungame

namespace MapGrammar

open Fall

/-- A parser over character lists, embedding the nom combinators of
`fall/src/map.rs` (`map_parser` module): `none` is any nom error, `some`
carries the remaining input and the parsed value. -/
def Parser (α : Type) : Type := List Char → Option (List Char × α)

/-- `nom::character::complete::char`. -/
def pchar (c : Char) : Parser Char := fun i =>
  match i with
  | [] => none
  | x :: r => if x = c then some (r, c) else none

/-- `nom::bytes::complete::tag`. -/
def ptag (s : List Char) : Parser (List Char) := fun i =>
  if s.isPrefixOf i then some (i.drop s.length, s) else none

/-- Index of the first occurrence of the substring `s`, if any. -/
def findSubIdx (s : List Char) : List Char → Option ℕ
  | [] => if s.isPrefixOf ([] : List Char) then some 0 else none
  | c :: t => if s.isPrefixOf (c :: t) then some 0 else (findSubIdx s t).map (· + 1)

/-- `nom::bytes::complete::take_until` (complete: errors when the substring
never occurs). -/
def takeUntilStr (s : List Char) : Parser (List Char) := fun i =>
  match findSubIdx s i with
  | none => none
  | some n => some (i.drop n, i.take n)

/-- `nom::bytes::complete::take_while`. -/
def takeWhileP (f : Char → Bool) : Parser (List Char) := fun i =>
  some (i.dropWhile f, i.takeWhile f)

/-- The four characters `nom::character::complete::multispace1` accepts. -/
def isWsChar (c : Char) : Bool := c = ' ' || c = '\t' || c = '\r' || c = '\n'

/-- `nom::character::complete::multispace1`. -/
def multispace1 : Parser (List Char) := fun i =>
  let t := i.takeWhile isWsChar
  if t.isEmpty then none else some (i.dropWhile isWsChar, t)

/-- `nom::character::complete::not_line_ending`: everything up to a CR/LF. -/
def notLineEnding : Parser (List Char) := fun i =>
  some (i.dropWhile (fun c => !(c = '\r' || c = '\n')),
    i.takeWhile fun c => !(c = '\r' || c = '\n'))

/-- `nom::character::complete::anychar`. -/
def anycharP : Parser Char := fun i =>
  match i with
  | [] => none
  | x :: r => some (r, x)

/-- `nom::combinator::verify`. -/
def verifyP {α : Type} (p : Parser α) (f : α → Bool) : Parser α := fun i =>
  match p i with
  | some (r, a) => if f a then some (r, a) else none
  | none => none

/-- `nom::combinator::map`. -/
def pmap {α β : Type} (p : Parser α) (f : α → β) : Parser β := fun i =>
  match p i with
  | some (r, a) => some (r, f a)
  | none => none

/-- `nom::branch::alt` of two alternatives. -/
def alt2 {α : Type} (p q : Parser α) : Parser α := fun i =>
  match p i with
  | some ra => some ra
  | none => q i

/-- `nom::sequence::preceded`. -/
def precededP {α β : Type} (p : Parser α) (q : Parser β) : Parser β := fun i =>
  match p i with
  | some (r, _) => q r
  | none => none

/-- `nom::sequence::terminated`. -/
def terminatedP {α β : Type} (p : Parser α) (q : Parser β) : Parser α := fun i =>
  match p i with
  | some (r, a) =>
    match q r with
    | some (r2, _) => some (r2, a)
    | none => none
  | none => none

/-- `nom::sequence::delimited`. -/
def delimitedP {α β γ : Type} (p : Parser α) (q : Parser β) (r : Parser γ) : Parser β :=
  precededP p (terminatedP q r)

/-- Sequencing used to embed `nom::sequence::tuple`/`separated_pair`. -/
def pseq {α β : Type} (p : Parser α) (f : α → Parser β) : Parser β := fun i =>
  match p i with
  | none => none
  | some (r, a) => f a r

/-- `nom::multi::many0`, with explicit fuel; nom's loop errors when the inner
parser succeeds without consuming input, and the fuel (input length + 1 at the
top call) can never be exhausted otherwise since every iteration consumes. -/
def many0Go {α : Type} (p : Parser α) : ℕ → List Char → Option (List Char × List α)
  | 0, _ => none
  | fuel + 1, i =>
    match p i with
    | none => some (i, [])
    | some (r, a) =>
      if r.length = i.length then none
      else
        match many0Go p fuel r with
        | none => none
        | some (r2, as) => some (r2, a :: as)

/-- `nom::multi::many0`. -/
def many0P {α : Type} (p : Parser α) : Parser (List α) := fun i =>
  many0Go p (i.length + 1) i

/-- `comment`: `preceded(tag("//"), not_line_ending)`. -/
def commentP : Parser (List Char) := precededP (ptag ['/', '/']) notLineEnding

/-- `ws`: `many0(alt((multispace1, comment)))`. -/
def wsP : Parser (List (List Char)) := many0P (alt2 multispace1 commentP)

/-- `string`: `delimited(char('"'), take_until("\""), char('"'))`. -/
def stringLit : Parser (List Char) :=
  delimitedP (pchar '\"') (takeUntilStr ['\"']) (pchar '\"')

/-- `property`: `separated_pair(string, ws, string)`. -/
def propertyP : Parser (List Char × List Char) :=
  pseq stringLit fun k => pseq wsP fun _ => pmap stringLit fun v => (k, v)

/-- Digit accumulation for the float value. -/
def digitsToNat (l : List Char) : ℕ := l.foldl (fun a c => 10 * a + (c.toNat - 48)) 0

/-- Optional exponent part of `nom::number::complete::float`. -/
def expOpt : List Char → Option (List Char × ℤ) := fun i =>
  match i with
  | c :: t =>
    if c = 'e' ∨ c = 'E' then
      let st : ℤ × List Char :=
        match t with
        | '+' :: u => (1, u)
        | '-' :: u => (-1, u)
        | _ => (1, t)
      let ds := st.2.takeWhile Char.isDigit
      if ds.isEmpty then none
      else some (st.2.dropWhile Char.isDigit, st.1 * (digitsToNat ds : ℤ))
    else some (i, 0)
  | [] => some (i, 0)

/-- The value of a recognized decimal float, idealized as the exact real the
decimal text denotes (f32 rounding is not modelled). -/
def mkFloatVal (sgn : ℝ) (ip fp : List Char) (e : ℤ) : ℝ :=
  sgn * ((digitsToNat ip : ℝ) + (digitsToNat fp : ℝ) / 10 ^ fp.length) * (10 : ℝ) ^ e

/-- `nom::number::complete::float`: optional sign, then digits with optional
fraction or a leading-dot fraction, then an optional exponent. -/
def floatP : Parser ℝ := fun i =>
  let sg : ℝ × List Char :=
    match i with
    | '+' :: t => (1, t)
    | '-' :: t => (-1, t)
    | _ => (1, i)
  let ip := sg.2.takeWhile Char.isDigit
  let i2 := sg.2.dropWhile Char.isDigit
  if ip.isEmpty then
    match i2 with
    | '.' :: t =>
      let fp := t.takeWhile Char.isDigit
      if fp.isEmpty then none
      else
        match expOpt (t.dropWhile Char.isDigit) with
        | some (i4, e) => some (i4, mkFloatVal sg.1 [] fp e)
        | none => none
    | _ => none
  else
    match i2 with
    | '.' :: t =>
      let fp := t.takeWhile Char.isDigit
      match expOpt (t.dropWhile Char.isDigit) with
      | some (i4, e) => some (i4, mkFloatVal sg.1 ip fp e)
      | none => none
    | _ =>
      match expOpt i2 with
      | some (i4, e) => some (i4, mkFloatVal sg.1 ip [] e)
      | none => none

/-- `point`: `(` ws float ws float ws float ws `)` mapped to a vector. -/
def pointP : Parser Vec3 :=
  pseq (pchar '(') fun _ => pseq wsP fun _ =>
  pseq floatP fun x => pseq wsP fun _ =>
  pseq floatP fun y => pseq wsP fun _ =>
  pseq floatP fun z => pseq wsP fun _ =>
  pmap (pchar ')') fun _ => (⟨x, y, z⟩ : Vec3)

/-- `literal`: `preceded(verify(anychar, alpha or underscore), take_while(...))`
(note the first character is dropped from the result, as in the source). -/
def literalP : Parser (List Char) :=
  precededP (verifyP anycharP fun c => c = '_' || c.isAlpha)
    (takeWhileP fun c => c = '_' || c.isAlpha)

/-- `plane`: three points, a texture literal and five floats. -/
def planeP : Parser Plane :=
  pseq pointP fun a => pseq wsP fun _ =>
  pseq pointP fun b => pseq wsP fun _ =>
  pseq pointP fun c => pseq wsP fun _ =>
  pseq literalP fun tex => pseq wsP fun _ =>
  pseq floatP fun x => pseq wsP fun _ =>
  pseq floatP fun y => pseq wsP fun _ =>
  pseq floatP fun r => pseq wsP fun _ =>
  pseq floatP fun sx => pseq wsP fun _ =>
  pmap floatP fun sy => Plane.mk a b c (String.mk tex) x y r sx sy

/-- `brush`: `{` (plane ws)* `}`. -/
def brushP : Parser Brush :=
  delimitedP (terminatedP (pchar '\x7b') wsP)
    (pmap (many0P (terminatedP planeP wsP)) Brush.mk)
    (pchar '\x7d')

/-- The property map of an entity, modelling `HashMap<&str, &str>` by its
lookup function; `insert` overwrites the previous binding of the key. -/
def PropMap : Type := List Char → Option (List Char)

/-- The empty map (`Entity::default()`). -/
def emptyProps : PropMap := fun _ => none

/-- `HashMap::insert`. -/
def insertProp (m : PropMap) (k v : List Char) : PropMap :=
  fun q => if q = k then some v else m q

/-- The parsed entity: key/value properties plus brushes. -/
structure Entity where
  properties : PropMap
  brushes : List Brush

/-- One step of the source's entity loop: a property is inserted into the map,
a brush is pushed onto the brush list. -/
def applyItem (e : Entity) (it : (List Char × List Char) ⊕ Brush) : Entity :=
  match it with
  | Sum.inl kv => { e with properties := insertProp e.properties kv.1 kv.2 }
  | Sum.inr b => { e with brushes := e.brushes ++ [b] }

/-- `alt((map(property, ..), map(brush, ..)))` inside the entity loop. -/
def entityItemP : Parser ((List Char × List Char) ⊕ Brush) :=
  alt2 (pmap propertyP Sum.inl) (pmap brushP Sum.inr)

/-- `entity` from `fall/src/map.rs`: `{` (property|brush ws)* `}` with the
items applied in order to a default entity. -/
def entityP : Parser Entity :=
  pmap (delimitedP (terminatedP (pchar '\x7b') wsP)
      (many0P (terminatedP entityItemP wsP))
      (pchar '\x7d'))
    fun items => items.foldl applyItem ⟨emptyProps, []⟩

/-- The parsed map (root object). -/
structure MapModel where
  entities : List Entity

/-- `parse`: `preceded(ws, many0(terminated(entity, ws)))`. -/
def parseMapP : Parser MapModel :=
  precededP wsP (pmap (many0P (terminatedP entityP wsP)) MapModel.mk)

/-- The text of one quoted key/value pair followed by a separating space:
`"k" "v" `. -/
def renderProp (kv : List Char × List Char) : List Char :=
  '\"' :: (kv.1 ++ '\"' :: ' ' :: '\"' :: (kv.2 ++ ['\"', ' ']))

/-- The text of a property list. -/
def renderProps (ps : List (List Char × List Char)) : List Char :=
  (ps.map renderProp).flatten

/-- The text of an entity block holding exactly those properties. -/
def renderEntity (ps : List (List Char × List Char)) : List Char :=
  '\x7b' :: (renderProps ps ++ ['\x7d'])

/-- The value of the LAST occurrence of key `k` in the pair list. -/
def lastVal (ps : List (List Char × List Char)) (k : List Char) : Option (List Char) :=
  (ps.reverse.find? fun kv => decide (kv.1 = k)).map fun kv => kv.2

theorem findSubIdx_quote (k rest : List Char) (hk : '\"' ∉ k) :
    findSubIdx ['\"'] (k ++ '\"' :: rest) = some k.length := by
  induction k with
  | nil =>
    show findSubIdx ['\"'] ('\"' :: rest) = some 0
    rw [findSubIdx, if_pos]
    simp [List.isPrefixOf]
  | cons c t ih =>
    have hc : c ≠ '\"' := fun h => hk (h ▸ List.mem_cons_self c t)
    have ht : '\"' ∉ t := fun h => hk (List.mem_cons_of_mem c h)
    show findSubIdx ['\"'] (c :: (t ++ '\"' :: rest)) = some (c :: t).length
    rw [findSubIdx, if_neg (by simp [List.isPrefixOf, Ne.symm hc]), ih ht]
    rfl

theorem stringLit_renders (k rest : List Char) (hk : '\"' ∉ k) :
    stringLit ('\"' :: (k ++ '\"' :: rest)) = some (rest, k) := by
  have h1 : pchar '\"' ('\"' :: (k ++ '\"' :: rest)) = some (k ++ '\"' :: rest, '\"') := by
    simp [pchar]
  have h2 : takeUntilStr ['\"'] (k ++ '\"' :: rest) = some ('\"' :: rest, k) := by
    unfold takeUntilStr
    rw [findSubIdx_quote k rest hk]
    show some ((k ++ '\"' :: rest).drop k.length, (k ++ '\"' :: rest).take k.length) = _
    rw [List.drop_left k ('\"' :: rest), List.take_left k ('\"' :: rest)]
  have h3 : pchar '\"' ('\"' :: rest) = some (rest, '\"') := by
    simp [pchar]
  simp only [stringLit, delimitedP, precededP, terminatedP, h1, h2, h3]

theorem alt2_ws_fail (c : Char) (t : List Char) (hw : isWsChar c = false) (hs : c ≠ '/') :
    alt2 multispace1 commentP (c :: t) = none := by
  have hm : multispace1 (c :: t) = none := by
    unfold multispace1
    rw [show (c :: t).takeWhile isWsChar = [] from by simp [List.takeWhile_cons, hw]]
    rfl
  have hcm : commentP (c :: t) = none := by
    unfold commentP precededP ptag
    rw [if_neg (by simp [List.isPrefixOf, Ne.symm hs])]
  simp only [alt2, hm, hcm]

theorem many0Go_ws_clean (c : Char) (t : List Char) (hw : isWsChar c = false)
    (hs : c ≠ '/') (fuel : ℕ) (hf : 1 ≤ fuel) :
    many0Go (alt2 multispace1 commentP) fuel (c :: t) = some (c :: t, []) := by
  obtain ⟨n, rfl⟩ : ∃ n, fuel = n + 1 := ⟨fuel - 1, by omega⟩
  rw [many0Go, alt2_ws_fail c t hw hs]

theorem wsP_head_clean (c : Char) (t : List Char) (hw : isWsChar c = false) (hs : c ≠ '/') :
    wsP (c :: t) = some (c :: t, []) := by
  unfold wsP many0P
  exact many0Go_ws_clean c t hw hs _ (by omega)

theorem wsP_space_clean (c : Char) (t : List Char) (hw : isWsChar c = false) (hs : c ≠ '/') :
    wsP (' ' :: c :: t) = some (c :: t, [[' ']]) := by
  unfold wsP many0P
  have hm : multispace1 (' ' :: c :: t) = some (c :: t, [' ']) := by
    unfold multispace1
    rw [show (' ' :: c :: t).takeWhile isWsChar = [' '] from by
        simp [List.takeWhile_cons, hw, show isWsChar ' ' = true from rfl],
      show (' ' :: c :: t).dropWhile isWsChar = c :: t from by
        simp [List.dropWhile_cons, hw, show isWsChar ' ' = true from rfl]]
    rfl
  have halt : alt2 multispace1 commentP (' ' :: c :: t) = some (c :: t, [' ']) := by
    simp only [alt2, hm]
  have hrec := many0Go_ws_clean c t hw hs ((' ' :: c :: t).length) (by simp)
  rw [many0Go]
  simp only [halt, hrec]
  rw [if_neg (by simp only [List.length_cons]; omega)]

theorem propertyP_renders (k v rest : List Char) (hk : '\"' ∉ k) (hv : '\"' ∉ v) :
    propertyP ('\"' :: (k ++ '\"' :: ' ' :: '\"' :: (v ++ '\"' :: rest)))
      = some (rest, (k, v)) := by
  have h1 := stringLit_renders k (' ' :: '\"' :: (v ++ '\"' :: rest)) hk
  have h2 := wsP_space_clean '\"' (v ++ '\"' :: rest) (by decide) (by decide)
  have h3 := stringLit_renders v rest hv
  simp only [propertyP, pseq, pmap, h1, h2, h3]

theorem entityItemP_rbrace (t : List Char) : entityItemP ('\x7d' :: t) = none := rfl

theorem terminated_item_renders (k v : List Char) (hk : '\"' ∉ k) (hv : '\"' ∉ v)
    (c : Char) (t : List Char) (hw : isWsChar c = false) (hs : c ≠ '/') :
    terminatedP entityItemP wsP
        ('\"' :: (k ++ '\"' :: ' ' :: '\"' :: (v ++ '\"' :: ' ' :: c :: t)))
      = some (c :: t, Sum.inl (k, v)) := by
  have h1 := propertyP_renders k v (' ' :: c :: t) hk hv
  have h2 := wsP_space_clean c t hw hs
  simp only [terminatedP, entityItemP, alt2, pmap, h1, h2]

theorem renderTail_shape (ps : List (List Char × List Char)) :
    ∃ c t, renderProps ps ++ ['\x7d'] = c :: t ∧ isWsChar c = false ∧ c ≠ '/' := by
  cases ps with
  | nil => exact ⟨'\x7d', [], by simp [renderProps], by decide, by decide⟩
  | cons kv tl =>
    refine ⟨'\"', (kv.1 ++ '\"' :: ' ' :: '\"' :: (kv.2 ++ ['\"', ' ']))
        ++ (renderProps tl ++ ['\x7d']), ?_, by decide, by decide⟩
    simp [renderProps, renderProp, List.append_assoc]

theorem itemsLoop (ps : List (List Char × List Char)) :
    ∀ fuel, (renderProps ps).length < fuel →
      (∀ kv ∈ ps, '\"' ∉ kv.1 ∧ '\"' ∉ kv.2) →
      many0Go (terminatedP entityItemP wsP) fuel (renderProps ps ++ ['\x7d'])
        = some (['\x7d'], ps.map Sum.inl) := by
  induction ps with
  | nil =>
    intro fuel hf _
    obtain ⟨n, rfl⟩ : ∃ n, fuel = n + 1 := ⟨fuel - 1, by omega⟩
    have hfail : terminatedP entityItemP wsP ['\x7d'] = none := by
      unfold terminatedP
      rw [entityItemP_rbrace]
    show many0Go (terminatedP entityItemP wsP) (n + 1) (renderProps [] ++ ['\x7d'])
      = some (['\x7d'], ([] : List (List Char × List Char)).map Sum.inl)
    rw [show renderProps [] ++ ['\x7d'] = ['\x7d'] from by simp [renderProps]]
    rw [many0Go, hfail]
    rfl
  | cons kv tl ih =>
    intro fuel hf hq
    obtain ⟨n, rfl⟩ : ∃ n, fuel = n + 1 := ⟨fuel - 1, by omega⟩
    obtain ⟨c, t, hct, hw, hs⟩ := renderTail_shape tl
    have hkv := hq kv (List.mem_cons_self kv tl)
    have htl : ∀ q ∈ tl, '\"' ∉ q.1 ∧ '\"' ∉ q.2 :=
      fun q hqm => hq q (List.mem_cons_of_mem kv hqm)
    have hshape : renderProps (kv :: tl) ++ ['\x7d']
        = '\"' :: (kv.1 ++ '\"' :: ' ' :: '\"'
            :: (kv.2 ++ '\"' :: ' ' :: (renderProps tl ++ ['\x7d']))) := by
      simp [renderProps, renderProp, List.append_assoc]
    rw [hshape]
    have hstep : terminatedP entityItemP wsP
        ('\"' :: (kv.1 ++ '\"' :: ' ' :: '\"'
          :: (kv.2 ++ '\"' :: ' ' :: (renderProps tl ++ ['\x7d']))))
        = some (renderProps tl ++ ['\x7d'], Sum.inl (kv.1, kv.2)) := by
      rw [hct]
      exact terminated_item_renders kv.1 kv.2 hkv.1 hkv.2 c t hw hs
    have hlen : ¬ ((renderProps tl ++ ['\x7d']).length
        = ('\"' :: (kv.1 ++ '\"' :: ' ' :: '\"'
            :: (kv.2 ++ '\"' :: ' ' :: (renderProps tl ++ ['\x7d'])))).length) := by
      simp only [List.length_append, List.length_cons]
      omega
    have hb1 : renderProps (kv :: tl) = renderProp kv ++ renderProps tl := by
      show ((kv :: tl).map renderProp).flatten = _
      rw [List.map_cons, List.flatten_cons]
      rfl
    have hb2 : (renderProp kv).length = kv.1.length + kv.2.length + 6 := by
      simp only [renderProp, List.length_cons, List.length_append, List.length_nil]
      omega
    have hbound : (renderProps tl).length < n := by
      rw [hb1, List.length_append, hb2] at hf
      omega
    rw [many0Go]
    simp only [hstep]
    rw [if_neg hlen, ih n hbound htl]
    rfl

theorem entityP_renders (ps : List (List Char × List Char))
    (hq : ∀ kv ∈ ps, '\"' ∉ kv.1 ∧ '\"' ∉ kv.2) :
    entityP (renderEntity ps)
      = some ([], (ps.map Sum.inl).foldl applyItem ⟨emptyProps, []⟩) := by
  obtain ⟨c, t, hct, hw, hs⟩ := renderTail_shape ps
  have hopen : pchar '\x7b' ('\x7b' :: (renderProps ps ++ ['\x7d']))
      = some (renderProps ps ++ ['\x7d'], '\x7b') := by
    simp [pchar]
  have hws : wsP (renderProps ps ++ ['\x7d']) = some (renderProps ps ++ ['\x7d'], []) := by
    rw [hct]
    exact wsP_head_clean c t hw hs
  have hmany : many0P (terminatedP entityItemP wsP) (renderProps ps ++ ['\x7d'])
      = some (['\x7d'], ps.map Sum.inl) := by
    unfold many0P
    refine itemsLoop ps _ ?_ hq
    simp only [List.length_append, List.length_cons, List.length_nil]
    omega
  have hclose : pchar '\x7d' ['\x7d'] = some ([], '\x7d') := by
    simp [pchar]
  simp only [entityP, renderEntity, pmap, delimitedP, precededP, terminatedP,
    hopen, hws, hmany, hclose]

theorem findq_append {α : Type} (l1 l2 : List α) (p : α → Bool) :
    (l1 ++ l2).find? p = ((l1.find? p).orElse fun _ => l2.find? p) := by
  induction l1 with
  | nil => rfl
  | cons a tl ih =>
    show ((a :: (tl ++ l2)).find? p) = _
    by_cases hpa : p a = true
    · rw [List.find?_cons_of_pos _ hpa, List.find?_cons_of_pos _ hpa]
      rfl
    · rw [List.find?_cons_of_neg _ (by simpa using hpa),
        List.find?_cons_of_neg _ (by simpa using hpa), ih]

theorem foldl_inl_brushes (ps : List (List Char × List Char)) :
    ∀ e : Entity, ((ps.map Sum.inl).foldl applyItem e).brushes = e.brushes := by
  induction ps with
  | nil => intro e; rfl
  | cons kv tl ih =>
    intro e
    show ((tl.map Sum.inl).foldl applyItem (applyItem e (Sum.inl kv))).brushes = e.brushes
    rw [ih]
    rfl

theorem foldl_inl_props (ps : List (List Char × List Char)) :
    ∀ (e : Entity) (k : List Char),
      ((ps.map Sum.inl).foldl applyItem e).properties k
        = match ps.reverse.find? (fun kv => decide (kv.1 = k)) with
          | some kv => some kv.2
          | none => e.properties k := by
  induction ps with
  | nil => intro e k; rfl
  | cons kv tl ih =>
    intro e k
    show ((tl.map Sum.inl).foldl applyItem (applyItem e (Sum.inl kv))).properties k = _
    rw [ih]
    rw [List.reverse_cons, findq_append]
    cases hf : tl.reverse.find? (fun q => decide (q.1 = k)) with
    | some f => rfl
    | none =>
      show (applyItem e (Sum.inl kv)).properties k
        = match [kv].find? (fun q => decide (q.1 = k)) with
          | some q => some q.2
          | none => e.properties k
      by_cases hk : kv.1 = k
      · rw [List.find?_cons_of_pos _ (by simpa using hk)]
        show insertProp e.properties kv.1 kv.2 k = some kv.2
        unfold insertProp
        rw [if_pos hk.symm]
      · rw [List.find?_cons_of_neg _ (by simpa using hk)]
        show insertProp e.properties kv.1 kv.2 k
          = match ([] : List (List Char × List Char)).find? (fun q => decide (q.1 = k)) with
            | some q => some q.2
            | none => e.properties k
        unfold insertProp
        rw [if_neg fun h => hk h.symm]
        rfl

/-- C10: for every property-only entity block (rendered from an arbitrary
key/value list whose keys and values are quote-free), parsing succeeds and the
resulting properties map binds each key to the value of its LAST occurrence in
the block; earlier values are silently overwritten by `HashMap::insert`. -/
theorem c10_duplicate_keys_last_wins (ps : List (List Char × List Char))
    (hq : ∀ kv ∈ ps, '\"' ∉ kv.1 ∧ '\"' ∉ kv.2) :
    entityP (renderEntity ps)
      = some ([], { properties := fun k => lastVal ps k, brushes := [] }) := by
  rw [entityP_renders ps hq]
  have h1 : ((ps.map Sum.inl).foldl applyItem ⟨emptyProps, []⟩).properties
      = fun k => lastVal ps k := by
    funext k
    rw [foldl_inl_props]
    unfold lastVal
    cases ps.reverse.find? (fun kv => decide (kv.1 = k)) with
    | some f => rfl
    | none => rfl
  have h2 : ((ps.map Sum.inl).foldl applyItem ⟨emptyProps, []⟩).brushes = [] :=
    foldl_inl_brushes ps _
  have hE : (ps.map Sum.inl).foldl applyItem ⟨emptyProps, []⟩
      = { properties := fun k => lastVal ps k, brushes := [] } := by
    rcases hEq : (ps.map Sum.inl).foldl applyItem (⟨emptyProps, []⟩ : Entity) with ⟨p, b⟩
    rw [hEq] at h1 h2
    rw [show p = fun k => lastVal ps k from h1, show b = ([] : List Brush) from h2]
  rw [hE]

/-- Concrete duplicate-key list for the C10 witness: key `a` bound to `1`
then to `2`. -/
def psW : List (List Char × List Char) := [(['a'], ['1']), (['a'], ['2'])]

theorem c10_witness :
    (∀ kv ∈ psW, '\"' ∉ kv.1 ∧ '\"' ∉ kv.2) ∧
      entityP (renderEntity psW)
        = some ([], { properties := fun k => lastVal psW k, brushes := [] }) := by
  have hq : ∀ kv ∈ psW, '\"' ∉ kv.1 ∧ '\"' ∉ kv.2 := by
    intro kv hkv
    rcases List.mem_cons.mp hkv with rfl | hkv
    · exact ⟨by decide, by decide⟩
    rcases List.mem_cons.mp hkv with rfl | hkv
    · exact ⟨by decide, by decide⟩
    · exact absurd hkv (List.not_mem_nil kv)
  exact ⟨hq, c10_duplicate_keys_last_wins psW hq⟩

end MapGrammar

